import Mathlib

/-!
# Verification of the cadvisor perf / resctrl collectors

Shallow embedding of `src/perf/collector_libpfm.go` (perf counter engine)
and `src/unnamed/part_000` (resctrl monitoring engine), together with
theorems settling the frozen claims about them.

Modelling conventions:
* Go `uint64` values are modelled as `Nat` (byte decoding keeps them below
  2 ^ 64 by construction); Go `int` values that can be negative (file
  descriptors, pids, CPU ids) are modelled as `Int`.
* Go `float64` arithmetic on the scaling ratio is modelled over `ℚ`.
  For every input appearing in a concrete theorem below, the `float64`
  computation is exact or agrees with the rational one on the compared
  digits (ratios such as 1/2 and 3/4 are exactly representable).
  Go's `uint64(f)` conversion truncates toward zero, i.e. takes the floor
  of a non-negative value; out-of-range conversions are
  implementation-defined in Go and are modelled by the mathematical floor.
* Go maps are modelled as association lists with Go's zero-value-on-missing
  lookup semantics; Go's unspecified map iteration order is modelled as the
  insertion order (no property proved here depends on the iteration order).
* Kernel and libpfm calls are modelled by oracles: explicit functions
  giving the outcome of each external call.  Successful perf_event_open
  calls return a non-negative descriptor, so the oracle returns a `Nat`.
* A Go runtime panic (out-of-range slice index) is modelled by the
  `GoResult.panicked` constructor: it aborts the whole call.
-/

/-- Outcome of a Go computation: normal value, returned error, or runtime
panic (an out-of-range index aborts the call instead of returning). -/
inductive GoResult (α : Type) where
  | panicked : GoResult α
  | failed : String → GoResult α
  | ok : α → GoResult α
deriving DecidableEq

/-! ## Binary decoding (`getPerfValues` input format)

The comment in `getPerfValues` documents the layout: 24 bytes of
`GroupReadFormat` (Nr, TimeEnabled, TimeRunning — three little-endian
`uint64`) followed by 16 bytes (Value, ID) per group member.
`GroupReadFormat` and `Values` themselves live in `types_libpfm.go`,
which is outside `src/`; their layout is modelled from the spec
(§6 "Binary read contract": exactly 24 bytes of header — entry count,
accumulated enabled-time, accumulated running-time — followed by 16 bytes
per entry, little-endian). -/

/-- Little-endian decoding of a list of bytes into a natural number. -/
def u64le (bs : List Nat) : Nat :=
  bs.foldr (fun b acc => b % 256 + 256 * acc) 0

/-- Little-endian encoding of a natural number into 8 bytes. -/
def encodeU64 (n : Nat) : List Nat :=
  (List.range 8).map (fun i => n / 256 ^ i % 256)

/-- The Go side allocates `buf := make([]byte, n)` (zero-initialised) and
`file.Read(buf)` writes the bytes actually read into its prefix; the code
ignores the returned length, so a short read leaves trailing zeros. -/
def fillBuf (n : Nat) (bs : List Nat) : List Nat :=
  bs.take n ++ List.replicate (n - bs.length) 0

/-- `info.PerfValue`: a named counter value tagged with its scaling ratio.
Modelled from the spec: the `info` package is outside `src/`; §6 describes
"a flat list of named per-CPU counter values each carrying a value, name,
and scaling ratio". -/
structure PerfValue where
  scalingRatio : ℚ
  value : Nat
  name : String
deriving DecidableEq

/-- `info.PerfStat`: a `PerfValue` together with the CPU it was read from.
Modelled from the spec (same provenance as `PerfValue`). -/
structure PerfStat where
  perfValue : PerfValue
  cpu : Int
deriving DecidableEq

/-- The Go `group` struct as needed by the read path: the registered event
names in registration order and the leader's name. -/
structure PerfGroup where
  names : List String
  leaderName : String
deriving DecidableEq

/-- Decoded header field `Nr` for a read into the buffer of
`getPerfValues` (24 + 16·#names bytes). -/
def decodedNr (bs : List Nat) (g : PerfGroup) : Nat :=
  u64le ((fillBuf (24 + 16 * g.names.length) bs).take 8)

/-- Decoded header field `TimeEnabled`. -/
def decodedEnabled (bs : List Nat) (g : PerfGroup) : Nat :=
  u64le (((fillBuf (24 + 16 * g.names.length) bs).drop 8).take 8)

/-- Decoded header field `TimeRunning`. -/
def decodedRunning (bs : List Nat) (g : PerfGroup) : Nat :=
  u64le (((fillBuf (24 + 16 * g.names.length) bs).drop 16).take 8)

/-- Decoded `Values[i].Value` entries (16 bytes per entry after the
24-byte header; the `ID` half is decoded but unused by the source). -/
def decodedValues (bs : List Nat) (g : PerfGroup) : List Nat :=
  (List.range (decodedNr bs g)).map
    (fun i => u64le (((fillBuf (24 + 16 * g.names.length) bs).drop (24 + 16 * i)).take 8))

/-- The scaling ratio computed by `getPerfValues`:
`scalingRatio := 1.0; if TimeRunning != 0 && TimeEnabled != 0 {
scalingRatio = TimeRunning / TimeEnabled }`. -/
def computedScalingRatio (bs : List Nat) (g : PerfGroup) : ℚ :=
  if decodedRunning bs g ≠ 0 ∧ decodedEnabled bs g ≠ 0 then
    (decodedRunning bs g : ℚ) / (decodedEnabled bs g : ℚ)
  else 1

/-- `getPerfValues(file, group)` from `collector_libpfm.go`.

The read outcome is passed in as `read` (`.error e` models
`file.Read` returning an error).  The decode of the 24-byte header always
succeeds (the buffer is at least 24 bytes); decoding `Nr` 16-byte entries
from the remaining `16·#names` bytes fails with `ErrUnexpectedEOF` when
`Nr > #names`.  The final loop `for i, name := range group.names` indexes
`perfValues[i]` and `values[i]`, both of length `Nr`: when `Nr < #names`
this is an out-of-range index, i.e. a runtime panic. -/
def getPerfValues (read : Except String (List Nat)) (g : PerfGroup) :
    GoResult (List PerfValue) :=
  match read with
  | .error e =>
      .failed ("unable to read perf event group ( leader = " ++ g.leaderName ++ " ): " ++ e)
  | .ok bs =>
      let nr := decodedNr bs g
      if nr ≤ g.names.length then
        let scalingRatio := computedScalingRatio bs g
        if g.names.length ≤ nr then
          -- `nr = g.names.length` here, so `names` and `values` zip exactly.
          if scalingRatio ≠ 0 then
            .ok (List.zipWith
              (fun (name : String) (v : Nat) =>
                { scalingRatio := scalingRatio,
                  value := (⌊(v : ℚ) / scalingRatio⌋).toNat,
                  name := name })
              g.names (decodedValues bs g))
          else
            .ok (List.zipWith
              (fun (name : String) (v : Nat) =>
                { scalingRatio := scalingRatio, value := v, name := name })
              g.names (decodedValues bs g))
        else
          .panicked
      else
        .failed ("unable to decode perf event group values ( leader = " ++ g.leaderName ++ " )")

/-! ### Read-path lemmas -/

/-- The computed scaling ratio is never zero: either it is the quotient of
two nonzero naturals or it is the neutral value `1`.  Consequently the
`scalingRatio != 0` guard in `getPerfValues` always takes the scaled
branch, making the raw-value fallback unreachable. -/
theorem computedScalingRatio_ne_zero (bs : List Nat) (g : PerfGroup) :
    computedScalingRatio bs g ≠ 0 := by
  unfold computedScalingRatio
  split
  · next h =>
    exact div_ne_zero (Nat.cast_ne_zero.mpr h.1) (Nat.cast_ne_zero.mpr h.2)
  · exact one_ne_zero

theorem computedScalingRatio_of_nonzero (bs : List Nat) (g : PerfGroup)
    (h : decodedRunning bs g ≠ 0 ∧ decodedEnabled bs g ≠ 0) :
    computedScalingRatio bs g =
      (decodedRunning bs g : ℚ) / (decodedEnabled bs g : ℚ) := by
  unfold computedScalingRatio
  exact if_pos h

theorem computedScalingRatio_neutral (bs : List Nat) (g : PerfGroup)
    (h : ¬(decodedRunning bs g ≠ 0 ∧ decodedEnabled bs g ≠ 0)) :
    computedScalingRatio bs g = 1 := by
  unfold computedScalingRatio
  exact if_neg h

/-- Unfolding equation for a successful read-and-decode: when the header
entry count matches the registered event count, `getPerfValues` scales
every raw value by the computed ratio. -/
theorem getPerfValues_ok_eq (bs : List Nat) (g : PerfGroup)
    (hnr : decodedNr bs g = g.names.length) :
    getPerfValues (.ok bs) g =
      .ok (List.zipWith
        (fun (name : String) (v : Nat) =>
          { scalingRatio := computedScalingRatio bs g,
            value := (⌊(v : ℚ) / computedScalingRatio bs g⌋).toNat,
            name := name })
        g.names (decodedValues bs g)) := by
  simp only [getPerfValues]
  rw [if_pos (le_of_eq hnr), if_pos (le_of_eq hnr.symm),
    if_pos (computedScalingRatio_ne_zero bs g)]

/-- Truncating division of naturals through `ℚ`:
`uint64(float64(v) / (r/e))` is `v * e / r` in natural-number division. -/
theorem floor_div_ratio (v r e : Nat) :
    (⌊(v : ℚ) / ((r : ℚ) / (e : ℚ))⌋).toNat = v * e / r := by
  rcases Nat.eq_zero_or_pos r with hr | hr
  · subst hr; simp
  rcases Nat.eq_zero_or_pos e with he | he
  · subst he; simp
  have hrq : (r : ℚ) ≠ 0 := Nat.cast_ne_zero.mpr hr.ne'
  have heq : (e : ℚ) ≠ 0 := Nat.cast_ne_zero.mpr he.ne'
  have : (v : ℚ) / ((r : ℚ) / (e : ℚ)) = ((v * e : Nat) : ℚ) / (r : ℚ) := by
    push_cast
    rw [div_div_eq_mul_div]
  rw [this, Int.floor_toNat, Nat.floor_div_nat, Nat.floor_natCast]

/-- Explicit evaluation of `getPerfValues` when enabled- and running-time
are both nonzero. -/
theorem getPerfValues_ok_scaled (bs : List Nat) (g : PerfGroup) (r e : Nat)
    (hnr : decodedNr bs g = g.names.length)
    (hr : decodedRunning bs g = r) (he : decodedEnabled bs g = e)
    (hrz : r ≠ 0) (hez : e ≠ 0) :
    getPerfValues (.ok bs) g =
      .ok (List.zipWith
        (fun (name : String) (v : Nat) =>
          { scalingRatio := (r : ℚ) / (e : ℚ), value := v * e / r, name := name })
        g.names (decodedValues bs g)) := by
  rw [getPerfValues_ok_eq bs g hnr]
  have hratio : computedScalingRatio bs g = (r : ℚ) / (e : ℚ) := by
    rw [computedScalingRatio_of_nonzero bs g (by rw [hr, he]; exact ⟨hrz, hez⟩), hr, he]
  simp only [hratio, floor_div_ratio]

/-- Explicit evaluation of `getPerfValues` in the neutral case: when
running-time or enabled-time is zero the ratio is `1` and the values are
reported unscaled. -/
theorem getPerfValues_ok_neutral (bs : List Nat) (g : PerfGroup)
    (hnr : decodedNr bs g = g.names.length)
    (h : decodedRunning bs g = 0 ∨ decodedEnabled bs g = 0) :
    getPerfValues (.ok bs) g =
      .ok (List.zipWith
        (fun (name : String) (v : Nat) => { scalingRatio := 1, value := v, name := name })
        g.names (decodedValues bs g)) := by
  rw [getPerfValues_ok_eq bs g hnr]
  have hratio : computedScalingRatio bs g = 1 := by
    apply computedScalingRatio_neutral
    rcases h with h | h <;> simp [h]
  simp only [hratio, div_one, Int.floor_natCast, Int.toNat_natCast]

/-- Inversion: when `getPerfValues` succeeds, the header count matched the
registered event count and the result is the scaled zip of names and raw
values. -/
theorem getPerfValues_ok_inv (bs : List Nat) (g : PerfGroup) (vs : List PerfValue)
    (hok : getPerfValues (.ok bs) g = .ok vs) :
    decodedNr bs g = g.names.length ∧
    vs = List.zipWith
      (fun (name : String) (v : Nat) =>
        { scalingRatio := computedScalingRatio bs g,
          value := (⌊(v : ℚ) / computedScalingRatio bs g⌋).toNat,
          name := name })
      g.names (decodedValues bs g) := by
  by_cases h1 : decodedNr bs g ≤ g.names.length
  · by_cases h2 : g.names.length ≤ decodedNr bs g
    · have hnr := le_antisymm h1 h2
      rw [getPerfValues_ok_eq bs g hnr] at hok
      injection hok with hok
      exact ⟨hnr, hok.symm⟩
    · exfalso
      simp only [getPerfValues] at hok
      rw [if_pos h1, if_neg h2] at hok
      exact GoResult.noConfusion hok
  · exfalso
    simp only [getPerfValues] at hok
    rw [if_neg h1] at hok
    exact GoResult.noConfusion hok

/-- Membership in a `zipWith` comes from some pair of members. -/
theorem mem_zipWith_exists {α β γ : Type} {f : α → β → γ} {c : γ} :
    ∀ {as : List α} {bs : List β}, c ∈ List.zipWith f as bs → ∃ a b, c = f a b := by
  intro as
  induction as with
  | nil => intro bs h; simp at h
  | cons a as ih =>
    intro bs h
    cases bs with
    | nil => simp at h
    | cons b bs =>
      rw [List.zipWith_cons_cons] at h
      rcases List.mem_cons.mp h with h | h
      · exact ⟨a, b, h⟩
      · exact ih h

/-! ### Concrete read scenarios used by the claims -/

/-- One-event group. -/
def grpSingle : PerfGroup := { names := ["cycles"], leaderName := "cycles" }

/-- Two-event group. -/
def grpPair : PerfGroup := { names := ["a", "b"], leaderName := "a" }

/-- Three-event group of the spec's worked scenario. -/
def grpTriple : PerfGroup := { names := ["a", "b", "c"], leaderName := "a" }

/-- Header {count=1, enabled=1000, running=0}, one raw value 100. -/
def bufZeroRunning : List Nat :=
  encodeU64 1 ++ encodeU64 1000 ++ encodeU64 0 ++ encodeU64 100 ++ encodeU64 0

/-- Header {count=1, enabled=1000, running=500}, one raw value 100. -/
def bufHalfSingle : List Nat :=
  encodeU64 1 ++ encodeU64 1000 ++ encodeU64 500 ++ encodeU64 100 ++ encodeU64 0

/-- Header {count=1, enabled=4, running=3}, one raw value 2: the scaled
value 2/(3/4) = 8/3 has a fractional part above one half, separating
truncation from rounding. -/
def bufThreeQuarters : List Nat :=
  encodeU64 1 ++ encodeU64 4 ++ encodeU64 3 ++ encodeU64 2 ++ encodeU64 0

/-- Header {count=3, ...} read for a single-event group: more entries than
registered events. -/
def bufOverCount : List Nat :=
  encodeU64 3 ++ encodeU64 1000 ++ encodeU64 500 ++ encodeU64 100 ++ encodeU64 0

/-- Header {count=3, enabled=1000, running=500} with raw values
{100, 200, 300}: the spec's worked scenario. -/
def bufScenario : List Nat :=
  encodeU64 3 ++ encodeU64 1000 ++ encodeU64 500 ++
    encodeU64 100 ++ encodeU64 0 ++ encodeU64 200 ++ encodeU64 0 ++ encodeU64 300 ++ encodeU64 0

/-! ### C1 — scaling ratio definition -/

/-- C1 counterexample: for the decoded record with enabledTime = 1000 ≠ 0
and runningTime = 0, the claim says the computed ratio is
runningTime / enabledTime = 0, but `getPerfValues` reports the neutral
ratio 1 (the code divides only when *both* times are nonzero). -/
theorem c1_zero_running_counterexample :
    getPerfValues (.ok bufZeroRunning) grpSingle =
      .ok [{ scalingRatio := 1, value := 100, name := "cycles" }] ∧
    decodedEnabled bufZeroRunning grpSingle = 1000 ∧
    decodedRunning bufZeroRunning grpSingle = 0 ∧
    (1 : ℚ) ≠ (0 : ℚ) / (1000 : ℚ) := by
  refine ⟨?_, by decide, by decide, by norm_num⟩
  rw [getPerfValues_ok_neutral _ _ (by decide) (Or.inl (by decide))]
  have hv : decodedValues bufZeroRunning grpSingle = [100] := by decide
  rw [hv]
  rfl

/-- C1 amended: every reported value carries the ratio
runningTime / enabledTime when *both* times are nonzero, and the neutral
ratio 1.0 when runningTime = 0 or enabledTime = 0 (in particular, for
enabledTime > 0 and runningTime = 0 the ratio is 1.0, not 0). -/
theorem c1_scaling_ratio_amended (bs : List Nat) (g : PerfGroup) (vs : List PerfValue)
    (hok : getPerfValues (.ok bs) g = .ok vs) :
    ∀ pv ∈ vs,
      (decodedRunning bs g ≠ 0 ∧ decodedEnabled bs g ≠ 0 →
        pv.scalingRatio = (decodedRunning bs g : ℚ) / (decodedEnabled bs g : ℚ)) ∧
      (decodedRunning bs g = 0 ∨ decodedEnabled bs g = 0 → pv.scalingRatio = 1) := by
  obtain ⟨-, hvs⟩ := getPerfValues_ok_inv bs g vs hok
  subst hvs
  intro pv hpv
  obtain ⟨name, v, rfl⟩ := mem_zipWith_exists hpv
  constructor
  · intro h
    simp [computedScalingRatio_of_nonzero bs g h]
  · intro h
    have : ¬(decodedRunning bs g ≠ 0 ∧ decodedEnabled bs g ≠ 0) := by tauto
    simp [computedScalingRatio_neutral bs g this]

/-- C1 witness: the amended theorem applied to the concrete scaled read
(enabled = 1000, running = 500, raw value 100). -/
theorem c1_scaling_ratio_amended_witness :
    (decodedRunning bufHalfSingle grpSingle ≠ 0 ∧ decodedEnabled bufHalfSingle grpSingle ≠ 0 →
      ({ scalingRatio := (500 : ℚ) / 1000, value := 200, name := "cycles" } : PerfValue).scalingRatio =
        (decodedRunning bufHalfSingle grpSingle : ℚ) / (decodedEnabled bufHalfSingle grpSingle : ℚ)) ∧
    (decodedRunning bufHalfSingle grpSingle = 0 ∨ decodedEnabled bufHalfSingle grpSingle = 0 →
      ({ scalingRatio := (500 : ℚ) / 1000, value := 200, name := "cycles" } : PerfValue).scalingRatio = 1) :=
  c1_scaling_ratio_amended bufHalfSingle grpSingle
    [{ scalingRatio := (500 : ℚ) / 1000, value := 200, name := "cycles" }]
    (by
      rw [getPerfValues_ok_scaled _ _ 500 1000 (by decide) (by decide) (by decide)
        (by decide) (by decide)]
      have hv : decodedValues bufHalfSingle grpSingle = [100] := by decide
      rw [hv]
      norm_num [List.zipWith])
    _ (by simp)

/-! ### C2 — truncation versus rounding -/

/-- C2 counterexample: for ratio 3/4 and raw value 2 the code reports
`uint64(2 / 0.75) = 2` (truncation toward zero), while the claim's
`round(rawValue / ratio) = round(8/3) = 3`. -/
theorem c2_rounding_counterexample :
    getPerfValues (.ok bufThreeQuarters) { names := ["e"], leaderName := "e" } =
      .ok [{ scalingRatio := 3 / 4, value := 2, name := "e" }] ∧
    round ((2 : ℚ) / (3 / 4)) ≠ (2 : ℤ) := by
  constructor
  · rw [getPerfValues_ok_scaled _ _ 3 4 (by decide) (by decide) (by decide) (by decide) (by decide)]
    have hv : decodedValues bufThreeQuarters { names := ["e"], leaderName := "e" } = [2] := by decide
    rw [hv]
    norm_num [List.zipWith]
  · have : ((2 : ℚ) / (3 / 4)) = 8 / 3 := by norm_num
    rw [this, round_eq]
    have : ⌊(8 : ℚ) / 3 + 1 / 2⌋ = 3 := by
      rw [Int.floor_eq_iff]
      norm_num
    rw [this]
    decide

/-- C2 amended: each reported value is the *truncation* ⌊rawValue / ratio⌋
(not the rounding) when the ratio is nonzero, the ratio is reported
alongside every value, and the computed ratio is never exactly zero (so
the raw-value fallback branch of the source is unreachable). -/
theorem c2_truncation_amended (bs : List Nat) (g : PerfGroup) (vs : List PerfValue)
    (hok : getPerfValues (.ok bs) g = .ok vs) :
    computedScalingRatio bs g ≠ 0 ∧
    ∀ i (h : i < vs.length),
      (vs.get ⟨i, h⟩).value =
        (⌊((decodedValues bs g).getD i 0 : ℚ) / computedScalingRatio bs g⌋).toNat ∧
      (vs.get ⟨i, h⟩).scalingRatio = computedScalingRatio bs g := by
  refine ⟨computedScalingRatio_ne_zero bs g, ?_⟩
  obtain ⟨-, hvs⟩ := getPerfValues_ok_inv bs g vs hok
  subst hvs
  intro i h
  have hlen := h
  rw [List.length_zipWith] at hlen
  have hi2 : i < (decodedValues bs g).length := lt_of_lt_of_le hlen (min_le_right _ _)
  rw [List.get_eq_getElem, List.getElem_zipWith]
  rw [List.getD_eq_getElem _ _ hi2]
  exact ⟨rfl, rfl⟩

/-- C2 witness: the amended theorem applied to the 3/4-ratio read. -/
theorem c2_truncation_amended_witness :
    computedScalingRatio bufThreeQuarters { names := ["e"], leaderName := "e" } ≠ 0 ∧
    (([{ scalingRatio := (3 : ℚ) / 4, value := 2, name := "e" }] : List PerfValue).get
        ⟨0, by decide⟩).value =
      (⌊((decodedValues bufThreeQuarters { names := ["e"], leaderName := "e" }).getD 0 0 : ℚ) /
          computedScalingRatio bufThreeQuarters { names := ["e"], leaderName := "e" }⌋).toNat ∧
    (([{ scalingRatio := (3 : ℚ) / 4, value := 2, name := "e" }] : List PerfValue).get
        ⟨0, by decide⟩).scalingRatio =
      computedScalingRatio bufThreeQuarters { names := ["e"], leaderName := "e" } := by
  have hok : getPerfValues (.ok bufThreeQuarters) { names := ["e"], leaderName := "e" } =
      .ok [{ scalingRatio := (3 : ℚ) / 4, value := 2, name := "e" }] := by
    rw [getPerfValues_ok_scaled _ _ 3 4 (by decide) (by decide) (by decide) (by decide) (by decide)]
    have hv : decodedValues bufThreeQuarters { names := ["e"], leaderName := "e" } = [2] := by decide
    rw [hv]
    norm_num [List.zipWith]
  obtain ⟨h1, h2⟩ := c2_truncation_amended bufThreeQuarters
    { names := ["e"], leaderName := "e" }
    [{ scalingRatio := (3 : ℚ) / 4, value := 2, name := "e" }] hok
  exact ⟨h1, h2 0 (by decide)⟩

/-! ### C3 — decode-mismatch handling -/

/-- C3: a read error and an over-count decode mismatch are returned as
recoverable errors (which `UpdateStats` logs and skips), but a header
entry count *smaller* than the group's registered event count makes the
final loop index `perfValues[i]` out of range: a runtime panic that
aborts the call, contradicting the claim that every decode mismatch is a
localized, logged, skipped failure. -/
theorem c3_decode_shortfall_panics :
    getPerfValues (.error "bad file descriptor") grpSingle =
      .failed "unable to read perf event group ( leader = cycles ): bad file descriptor" ∧
    getPerfValues (.ok bufOverCount) grpSingle =
      .failed "unable to decode perf event group values ( leader = cycles )" ∧
    getPerfValues (.ok bufHalfSingle) grpPair = .panicked := by
  refine ⟨by rfl, by decide, by decide⟩

/-! ## `UpdateStats` (perf collector)

`UpdateStats` first calls the uncore collector (its failure is only
logged), then resets `stats.PerfStats` to the empty list and, for every
group and every CPU of that group's leader map, appends the decoded
stats, logging and skipping any read/decode error.  The environment below
supplies the outcome of the uncore call and of each per-CPU read. -/

/-- The portion of `info.ContainerStats` this collector writes. -/
structure ContainerStats where
  perfStats : List PerfStat
deriving DecidableEq

/-- Outcome of one per-CPU leader read. -/
structure CpuRead where
  cpu : Int
  read : Except String (List Nat)

/-- One registered group together with the outcomes of the reads of its
per-CPU leader descriptors. -/
structure GroupEnv where
  grp : PerfGroup
  reads : List CpuRead

/-- Environment of one `UpdateStats` call: the uncore collector outcome
(`some e` models a returned error, which is only logged) and the per-CPU
read outcomes of each registered group. -/
structure UpdEnv where
  uncoreErr : Option String
  groups : List GroupEnv

/-- `readGroupPerfStat`: decode one group read and tag each value with its
CPU. -/
def readGroupPerfStat (read : Except String (List Nat)) (g : PerfGroup) (cpu : Int) :
    GoResult (List PerfStat) :=
  match getPerfValues read g with
  | .panicked => .panicked
  | .failed e => .failed e
  | .ok values => .ok (values.map (fun v => { perfValue := v, cpu := cpu }))

/-- The inner loop of `UpdateStats` over one group's per-CPU files: a
failed read is logged and skipped (`continue`); a panic propagates. -/
def updateGroupReads (g : PerfGroup) : List CpuRead → GoResult (List PerfStat)
  | [] => .ok []
  | r :: rest =>
    match readGroupPerfStat r.read g r.cpu with
    | .panicked => .panicked
    | .failed _ => updateGroupReads g rest
    | .ok stat =>
      match updateGroupReads g rest with
      | .panicked => .panicked
      | .failed e => .failed e
      | .ok more => .ok (stat ++ more)

/-- The outer loop of `UpdateStats` over all groups. -/
def updateAllGroups : List GroupEnv → GoResult (List PerfStat)
  | [] => .ok []
  | ge :: rest =>
    match updateGroupReads ge.grp ge.reads with
    | .panicked => .panicked
    | .failed e => .failed e
    | .ok stats =>
      match updateAllGroups rest with
      | .panicked => .panicked
      | .failed e => .failed e
      | .ok more => .ok (stats ++ more)

/-- `UpdateStats`: the uncore error is only logged; `stats.PerfStats` is
reset to `[]` and successful contributions are appended; the function's
single `return` statement returns `nil`, modelled by `.ok` carrying the
final stats. -/
def updateStats (env : UpdEnv) (stats : ContainerStats) : GoResult ContainerStats :=
  match updateAllGroups env.groups with
  | .panicked => .panicked
  | .failed e => .failed e
  | .ok l => .ok { perfStats := l }

/-- The contribution of one group: the concatenation of its successful
per-CPU reads, in order. -/
def groupContribution (g : PerfGroup) (reads : List CpuRead) : List PerfStat :=
  (reads.map (fun r =>
    match readGroupPerfStat r.read g r.cpu with
    | .ok l => l
    | _ => [])).flatten

/-- What a returning `UpdateStats` call reports: every group's
contribution, independent of the incoming stats. -/
def expectedPerfStats (env : UpdEnv) : List PerfStat :=
  (env.groups.map (fun ge => groupContribution ge.grp ge.reads)).flatten

theorem updateGroupReads_characterization (g : PerfGroup) (reads : List CpuRead) :
    updateGroupReads g reads = .panicked ∨
    updateGroupReads g reads = .ok (groupContribution g reads) := by
  induction reads with
  | nil => right; rfl
  | cons r rest ih =>
    unfold updateGroupReads groupContribution
    cases hr : readGroupPerfStat r.read g r.cpu with
    | panicked => left; rfl
    | failed e =>
      rcases ih with h | h
      · left; exact h
      · right
        rw [h]
        simp [groupContribution, hr]
    | ok stat =>
      rcases ih with h | h
      · left; rw [h]
      · right
        rw [h]
        simp [groupContribution, hr]

theorem updateAllGroups_characterization (groups : List GroupEnv) :
    updateAllGroups groups = .panicked ∨
    updateAllGroups groups = .ok ((groups.map (fun ge => groupContribution ge.grp ge.reads)).flatten) := by
  induction groups with
  | nil => right; rfl
  | cons ge rest ih =>
    unfold updateAllGroups
    rcases updateGroupReads_characterization ge.grp ge.reads with h | h
    · left; rw [h]
    · rw [h]
      rcases ih with h2 | h2
      · left; rw [h2]
      · right
        rw [h2]
        simp

/-- C10 amended: `UpdateStats` never returns a non-nil error.  For every
collector state and every outcome of the uncore collector and of the
per-CPU reads, the call either panics (only on a decoded entry count
smaller than the registered event count, see C3) or returns nil with
`PerfStats` reset to exactly the successful contributions — the incoming
`PerfStats` list never survives. -/
theorem c10_updatestats_amended (env : UpdEnv) (stats : ContainerStats) :
    updateStats env stats = .panicked ∨
    updateStats env stats = .ok { perfStats := expectedPerfStats env } := by
  unfold updateStats expectedPerfStats
  rcases updateAllGroups_characterization env.groups with h | h
  · left; rw [h]
  · right; rw [h]

/-- C10 counterexample: with one two-event group whose single read decodes
to an entry count of 1, `UpdateStats` panics instead of returning nil, so
"the error result of UpdateStats is nil for every outcome of the per-CPU
group reads" fails as a statement about every outcome. -/
theorem c10_always_nil_counterexample :
    updateStats
      { uncoreErr := some "uncore failure",
        groups := [{ grp := grpPair, reads := [{ cpu := 0, read := .ok bufHalfSingle }] }] }
      { perfStats := [{ perfValue := { scalingRatio := 1, value := 7, name := "stale" }, cpu := 3 }] } =
      .panicked := by
  have h : getPerfValues (.ok bufHalfSingle) grpPair = .panicked := by decide
  unfold updateStats updateAllGroups updateGroupReads readGroupPerfStat
  rw [h]

/-! ## Resctrl collector (`src/unnamed/part_000`)

The resctrl collector wraps an `intelrdt.IntelRdtManager` (external runc
library); calls into the library and the filesystem are recorded as
`ResctrlOp` operations. -/

/-- Filesystem / library operations the resctrl collector can perform. -/
inductive ResctrlOp where
  | setGroup (id : String)
  | applyPid (id : String) (pid : Int)
  | readPids (path : String)
  | removeGroup (id : String)
deriving DecidableEq

/-- `intelrdt` monitoring type: `CTRL_MON` for the root scope, `MON` for a
container-scoped monitoring group. -/
inductive RdtType where
  | ctrlMon
  | mon
deriving DecidableEq

/-- The `intelrdt.IntelRdtManager` fields set by this collector. -/
structure IntelRdtManager where
  id : String
  rdtType : RdtType
deriving DecidableEq

/-- The resctrl `collector` struct. -/
structure RCollector where
  resctrl : IntelRdtManager
  pidsPath : String
deriving DecidableEq

/-- The root/system-wide container identifier. -/
def rootContainerID : String := "/"

/-- Outcomes of the external calls made during resctrl collector
construction. -/
structure ResctrlOracle where
  cgroup2UnifiedMode : Bool
  setResult : Except String Unit
  getPids : String → Except String (List Int)
  applyResult : Int → Except String Unit

/-- `filepath.Join` restricted to the shapes used here (a mount point and
a container id); path cleaning is irrelevant to the claims. -/
def joinPath (a b : String) : String := a ++ "/" ++ b

/-- `updatePids`: enumerate the pids under the collector's pid path and
assign each to the monitoring group; the first failure propagates. -/
def updatePids (ora : ResctrlOracle) (c : RCollector) :
    Except String Unit × List ResctrlOp :=
  match ora.getPids c.pidsPath with
  | .error e => (.error e, [.readPids c.pidsPath])
  | .ok pids =>
    let rec applyAll : List Int → Except String Unit × List ResctrlOp
      | [] => (.ok (), [])
      | p :: rest =>
        match ora.applyResult p with
        | .error e => (.error e, [.applyPid c.resctrl.id p])
        | .ok () =>
          let (r, ops) := applyAll rest
          (r, .applyPid c.resctrl.id p :: ops)
    let (r, ops) := applyAll pids
    (r, .readPids c.pidsPath :: ops)

/-- `newCollector(id)` of the resctrl collector.  For the root identifier
it performs no filesystem or library operation and derives no pid path;
otherwise it derives the pid path from the cgroup hierarchy version,
provisions the monitoring directory (`resctrl.Set`) and assigns the
current pids. -/
def newResctrlCollector (ora : ResctrlOracle) (id : String) :
    Except String RCollector × List ResctrlOp :=
  if id = rootContainerID then
    (.ok { resctrl := { id := id, rdtType := .ctrlMon }, pidsPath := "" }, [])
  else
    let pidsPath :=
      if ora.cgroup2UnifiedMode then joinPath "/sys/fs/cgroup" id
      else joinPath "/sys/fs/cgroup/cpu" id
    let c : RCollector := { resctrl := { id := id, rdtType := .mon }, pidsPath := pidsPath }
    match ora.setResult with
    | .error e => (.error e, [.setGroup id])
    | .ok () =>
      match updatePids ora c with
      | (.error e, ops) => (.error e, .setGroup id :: ops)
      | (.ok (), ops) => (.ok c, .setGroup id :: ops)

/-- `Destroy` of the resctrl collector: `resctrl.Destroy()` (removal of
the monitoring-group directory) is issued only for non-root collectors;
its error would only be logged. -/
def resctrlDestroy (c : RCollector) : List ResctrlOp :=
  if c.resctrl.id ≠ rootContainerID then [.removeGroup c.resctrl.id] else []

/-- C8: constructing the resctrl collector for the root identifier derives
no pid-source path (the path is empty and no pid enumeration, provisioning
or pid assignment is performed), and `Destroy` on it performs zero
filesystem operations — the root monitoring scope is never mutated. -/
theorem c8_root_resctrl_noop (ora : ResctrlOracle) :
    newResctrlCollector ora rootContainerID =
      (.ok { resctrl := { id := rootContainerID, rdtType := .ctrlMon }, pidsPath := "" }, []) ∧
    resctrlDestroy { resctrl := { id := rootContainerID, rdtType := .ctrlMon }, pidsPath := "" } = [] := by
  constructor
  · unfold newResctrlCollector
    rw [if_pos rfl]
  · unfold resctrlDestroy
    rw [if_neg (by simp)]

/-! ## libpfm init / Finalize lifecycle

The global flag `isLibpfmInitialized` and the process-wide
`libpmfMutex` guard one-time initialization (`init`) and termination
(`Finalize`).  Since every access happens under the single lock, the
sequential model below steps through any sequence of calls. -/

/-- External libpfm operations. -/
inductive LibpfmOp where
  | pfmInit
  | pfmTerm
deriving DecidableEq

/-- A call into the lifecycle: `init` (with the success of
`pfm_initialize` as parameter) or `Finalize`. -/
inductive LibpfmCall where
  | initCall (success : Bool)
  | finalizeCall
deriving DecidableEq

/-- The global state: the `isLibpfmInitialized` flag. -/
structure LibpfmState where
  isLibpfmInitialized : Bool
deriving DecidableEq

/-- `init()`: always attempts `pfm_initialize`; on failure it logs and
returns leaving the flag unchanged, on success it sets the flag. -/
def libpfmInitStep (success : Bool) (s : LibpfmState) : LibpfmState × List LibpfmOp :=
  (if success then { isLibpfmInitialized := true } else s, [LibpfmOp.pfmInit])

/-- `Finalize()`: under the lock, if the flag is clear it logs and returns
without terminating; otherwise it calls `pfm_terminate` and clears the
flag. -/
def finalizeStep (s : LibpfmState) : LibpfmState × List LibpfmOp :=
  if s.isLibpfmInitialized then ({ isLibpfmInitialized := false }, [LibpfmOp.pfmTerm])
  else (s, [])

def libpfmStep (s : LibpfmState) : LibpfmCall → LibpfmState × List LibpfmOp
  | .initCall success => libpfmInitStep success s
  | .finalizeCall => finalizeStep s

/-- Run a sequence of lifecycle calls from a given state, collecting the
emitted libpfm operations. -/
def runLibpfmFrom (s : LibpfmState) : List LibpfmCall → LibpfmState × List LibpfmOp
  | [] => (s, [])
  | c :: rest =>
    let (s', ops) := libpfmStep s c
    let (s'', ops') := runLibpfmFrom s' rest
    (s'', ops ++ ops')

/-- Run a sequence of lifecycle calls from the initial state (flag
clear). -/
def runLibpfm (calls : List LibpfmCall) : LibpfmState × List LibpfmOp :=
  runLibpfmFrom { isLibpfmInitialized := false } calls

/-- Number of `pfm_terminate` calls in a trace. -/
def termCount (ops : List LibpfmOp) : Nat :=
  (ops.filter (fun op => op = LibpfmOp.pfmTerm)).length

/-- Number of successful initializations in a call sequence. -/
def initOkCount (calls : List LibpfmCall) : Nat :=
  (calls.filter (fun c => c = LibpfmCall.initCall true)).length

theorem termCount_append (a b : List LibpfmOp) :
    termCount (a ++ b) = termCount a + termCount b := by
  unfold termCount
  rw [List.filter_append, List.length_append]

/-- One-step unfolding of `runLibpfmFrom`. -/
theorem runLibpfmFrom_cons (s : LibpfmState) (c : LibpfmCall) (rest : List LibpfmCall) :
    runLibpfmFrom s (c :: rest) =
      ((runLibpfmFrom (libpfmStep s c).1 rest).1,
        (libpfmStep s c).2 ++ (runLibpfmFrom (libpfmStep s c).1 rest).2) := rfl

theorem libpfmStep_init_true (s : LibpfmState) :
    libpfmStep s (.initCall true) = ({ isLibpfmInitialized := true }, [LibpfmOp.pfmInit]) := rfl

theorem libpfmStep_init_false (s : LibpfmState) :
    libpfmStep s (.initCall false) = (s, [LibpfmOp.pfmInit]) := by
  simp [libpfmStep, libpfmInitStep]

theorem libpfmStep_finalize_set (s : LibpfmState) (h : s.isLibpfmInitialized = true) :
    libpfmStep s .finalizeCall = ({ isLibpfmInitialized := false }, [LibpfmOp.pfmTerm]) := by
  simp [libpfmStep, finalizeStep, h]

theorem libpfmStep_finalize_clear (s : LibpfmState) (h : s.isLibpfmInitialized = false) :
    libpfmStep s .finalizeCall = (s, []) := by
  simp [libpfmStep, finalizeStep, h]

theorem initOkCount_cons (c : LibpfmCall) (rest : List LibpfmCall) :
    initOkCount (c :: rest) =
      initOkCount rest + (if c = LibpfmCall.initCall true then 1 else 0) := by
  by_cases h : c = LibpfmCall.initCall true
  · simp [initOkCount, h]
  · simp [initOkCount, h]

/-- Auxiliary invariant: terminates issued so far plus a pending terminate
for a set flag never exceed the successful initializations. -/
theorem runLibpfmFrom_invariant (calls : List LibpfmCall) :
    ∀ s : LibpfmState,
      termCount (runLibpfmFrom s calls).2 +
        ((runLibpfmFrom s calls).1.isLibpfmInitialized).toNat ≤
      initOkCount calls + (s.isLibpfmInitialized).toNat := by
  induction calls with
  | nil => intro s; simp [runLibpfmFrom, termCount, initOkCount]
  | cons c rest ih =>
    intro s
    rw [runLibpfmFrom_cons, initOkCount_cons]
    cases c with
    | initCall success =>
      cases success with
      | true =>
        rw [libpfmStep_init_true]
        have h := ih { isLibpfmInitialized := true }
        have h1 : (({ isLibpfmInitialized := true } : LibpfmState).isLibpfmInitialized).toNat = 1 := rfl
        have h2 : termCount [LibpfmOp.pfmInit] = 0 := rfl
        rw [termCount_append, h2, if_pos rfl]
        dsimp only
        omega
      | false =>
        rw [libpfmStep_init_false]
        have h := ih s
        have h2 : termCount [LibpfmOp.pfmInit] = 0 := rfl
        rw [termCount_append, h2, if_neg (by simp)]
        dsimp only
        omega
    | finalizeCall =>
      rw [if_neg (by simp)]
      cases hs : s.isLibpfmInitialized with
      | true =>
        rw [libpfmStep_finalize_set s hs]
        have h := ih { isLibpfmInitialized := false }
        have h1 : (({ isLibpfmInitialized := false } : LibpfmState).isLibpfmInitialized).toNat = 0 := rfl
        have h2 : termCount [LibpfmOp.pfmTerm] = 1 := rfl
        have h3 : (true).toNat = 1 := rfl
        rw [termCount_append, h2, h3]
        dsimp only
        omega
      | false =>
        rw [libpfmStep_finalize_clear s hs]
        have h := ih s
        rw [hs] at h
        have h2 : termCount ([] : List LibpfmOp) = 0 := rfl
        have h3 : (false).toNat = 0 := rfl
        rw [termCount_append, h2]
        dsimp only
        omega

theorem runLibpfmFrom_append (s : LibpfmState) (xs ys : List LibpfmCall) :
    runLibpfmFrom s (xs ++ ys) =
      ((runLibpfmFrom (runLibpfmFrom s xs).1 ys).1,
        (runLibpfmFrom s xs).2 ++ (runLibpfmFrom (runLibpfmFrom s xs).1 ys).2) := by
  induction xs generalizing s with
  | nil => simp [runLibpfmFrom]
  | cons c rest ih =>
    rw [List.cons_append, runLibpfmFrom_cons, runLibpfmFrom_cons, ih, List.append_assoc]

/-- C9: `Finalize` is idempotent and a no-op when initialization never
occurred or termination already completed: after any call sequence ending
in `Finalize` the initialized flag is clear and a further `Finalize`
issues no operation; `Finalize` from the pristine state issues no
operation; and along every call sequence at most one `pfm_terminate` is
issued per successful `pfm_initialize`. -/
theorem c9_finalize_idempotent :
    (∀ calls : List LibpfmCall,
      (runLibpfm (calls ++ [.finalizeCall])).1.isLibpfmInitialized = false) ∧
    (∀ calls : List LibpfmCall,
      finalizeStep (runLibpfm (calls ++ [.finalizeCall])).1 =
        ((runLibpfm (calls ++ [.finalizeCall])).1, [])) ∧
    finalizeStep { isLibpfmInitialized := false } = ({ isLibpfmInitialized := false }, []) ∧
    (∀ calls : List LibpfmCall, termCount (runLibpfm calls).2 ≤ initOkCount calls) := by
  have hflag : ∀ calls : List LibpfmCall,
      (runLibpfm (calls ++ [.finalizeCall])).1.isLibpfmInitialized = false := by
    intro calls
    unfold runLibpfm
    rw [runLibpfmFrom_append]
    cases hs : ((runLibpfmFrom { isLibpfmInitialized := false } calls).1).isLibpfmInitialized with
    | true => rw [runLibpfmFrom_cons, libpfmStep_finalize_set _ hs]; rfl
    | false => rw [runLibpfmFrom_cons, libpfmStep_finalize_clear _ hs]; exact hs
  refine ⟨hflag, ?_, by rfl, ?_⟩
  · intro calls
    exact libpfmStep_finalize_clear _ (hflag calls)
  · intro calls
    have h := runLibpfmFrom_invariant calls { isLibpfmInitialized := false }
    have h1 : (({ isLibpfmInitialized := false } : LibpfmState).isLibpfmInitialized).toNat = 0 := rfl
    unfold runLibpfm
    omega

/-! ## `setup` / `registerEvent` (perf collector)

Kernel calls (`perf_event_open`, the reset/enable `ioctl`s) and libpfm
symbolic resolution are modelled by a `PerfOracle`; every completed kernel
operation is recorded as a `TraceOp`.  The group/event/CPU indices carried
by `TraceOp.openEvent` are ghost observation data: they record at which
loop position the call was made, not extra arguments of the call. -/

/-- `groupLeaderFileDescriptor = -1`: the "new group" sentinel. -/
def groupLeaderFileDescriptor : Int := -1

/-- `unix.PERF_FLAG_FD_CLOEXEC`. -/
def PERF_FLAG_FD_CLOEXEC : Nat := 8

/-- `unix.PERF_FLAG_PID_CGROUP`. -/
def PERF_FLAG_PID_CGROUP : Nat := 4

/-- `unix.PerfBitDisabled` (bit 0 of the attribute bits). -/
def PerfBitDisabled : Nat := 1

/-- `unix.PERF_FORMAT_TOTAL_TIME_ENABLED`. -/
def PERF_FORMAT_TOTAL_TIME_ENABLED : Nat := 1

/-- `unix.PERF_FORMAT_TOTAL_TIME_RUNNING`. -/
def PERF_FORMAT_TOTAL_TIME_RUNNING : Nat := 2

/-- `unix.PERF_FORMAT_ID`. -/
def PERF_FORMAT_ID : Nat := 4

/-- `unix.PERF_FORMAT_GROUP`. -/
def PERF_FORMAT_GROUP : Nat := 8

/-- Modelled from the spec: `perfSampleIdentifier` lives in
`types_libpfm.go`, outside `src/` (the identifier sample flag,
`PERF_SAMPLE_IDENTIFIER = 1 << 16`). -/
def perfSampleIdentifier : Nat := 65536

/-- Modelled from the spec: `perfAttrBitsInherit` lives in
`types_libpfm.go`, outside `src/` ("counter inheritance across forked
processes", the inherit attribute bit, `1 << 1`). -/
def perfAttrBitsInherit : Nat := 2

/-- Modelled from the spec: `perfAttrBitsExcludeGuest` lives in
`types_libpfm.go`, outside `src/` ("exclusion of guest-mode execution",
the exclude_guest attribute bit, `1 << 20`). -/
def perfAttrBitsExcludeGuest : Nat := 1048576

/-- `unsafe.Sizeof(unix.PerfEventAttr{})`. -/
def perfEventAttrSize : Nat := 136

/-- The fields of `unix.PerfEventAttr` this code writes. -/
structure PerfEventAttr where
  attrType : Nat
  config : Nat
  ext1 : Nat
  ext2 : Nat
  sampleType : Nat
  readFormat : Nat
  bits : Nat
  size : Nat
deriving DecidableEq

/-- A zeroed `unix.PerfEventAttr{}`. -/
def emptyAttr : PerfEventAttr :=
  { attrType := 0, config := 0, ext1 := 0, ext2 := 0,
    sampleType := 0, readFormat := 0, bits := 0, size := 0 }

/-- `setAttributes(config, leader)`: shared attribute flags; only the
leader's configuration additionally sets the counting-disabled bit. -/
def setAttributes (cfg : PerfEventAttr) (leader : Bool) : PerfEventAttr :=
  let c := { cfg with
    sampleType := perfSampleIdentifier,
    readFormat := PERF_FORMAT_TOTAL_TIME_ENABLED ||| PERF_FORMAT_TOTAL_TIME_RUNNING |||
      PERF_FORMAT_GROUP ||| PERF_FORMAT_ID,
    bits := perfAttrBitsInherit ||| perfAttrBitsExcludeGuest }
  let c := if leader then { c with bits := c.bits ||| PerfBitDisabled } else c
  { c with size := perfEventAttrSize }

/-- A raw custom event: type code plus up to three configuration words.
`Config[0]` is always present for well-formed events (the Go code indexes
it unconditionally), modelled with `headD`. -/
structure CustomEvent where
  eventType : Nat
  config : List Nat
  name : String

/-- `createPerfEventAttr(event)`. -/
def createPerfEventAttr (event : CustomEvent) : PerfEventAttr :=
  let length := event.config.length
  let cfg := { emptyAttr with attrType := event.eventType, config := event.config.headD 0 }
  let cfg := if 2 ≤ length then { cfg with ext1 := event.config.getD 1 0 } else cfg
  if length = 3 then { cfg with ext2 := event.config.getD 2 0 } else cfg

/-- Outcomes of the external calls made during setup.  A successful
`perf_event_open` returns a non-negative kernel descriptor, hence `Nat`.
`openEvent` receives (config, pid, cpu, groupFd, flags) exactly as
`unix.PerfEventOpen` does. -/
structure PerfOracle where
  resolveEvent : String → Except Int PerfEventAttr
  openEvent : PerfEventAttr → Int → Int → Int → Nat → Except String Nat
  resetEvent : Int → Except String Unit
  enableEvent : Int → Except String Unit

/-- Errors of the setup path, carrying exactly the data the source
interpolates into its error values (`fmt.Errorf` / bare `err`). -/
inductive PerfError where
  | cgroupOpenFailed (path : String) (msg : String)
  | resolveFailed (name : String) (code : Int)
  | openFailed (cfg : PerfEventAttr) (msg : String)
  | noLeaderFds
  | ioctlFailed (msg : String)
deriving DecidableEq

/-- Completed kernel operations, in order.  `groupIdx`/`eventIdx` are
ghost positions; `retFd` is the descriptor the open returned. -/
inductive TraceOp where
  | openEvent (groupIdx eventIdx : Nat) (name : String) (cfg : PerfEventAttr)
      (pid cpu groupFd : Int) (flags : Nat) (retFd : Nat)
  | ioctlReset (groupIdx : Nat) (fd : Int)
  | ioctlEnable (groupIdx : Nat) (fd : Int)
  | closeFd (fd : Int)
deriving DecidableEq

def TraceOp.isOpenOp : TraceOp → Bool
  | .openEvent .. => true
  | _ => false

def TraceOp.isCloseOp : TraceOp → Bool
  | .closeFd _ => true
  | _ => false

def TraceOp.gIdx : TraceOp → Nat
  | .openEvent g .. => g
  | .ioctlReset g _ => g
  | .ioctlEnable g _ => g
  | .closeFd _ => 0

def TraceOp.eIdx : TraceOp → Nat
  | .openEvent _ j .. => j
  | _ => 0

def TraceOp.opName : TraceOp → String
  | .openEvent _ _ n .. => n
  | _ => ""

def TraceOp.attr : TraceOp → PerfEventAttr
  | .openEvent _ _ _ c .. => c
  | _ => emptyAttr

def TraceOp.opCpu : TraceOp → Int
  | .openEvent _ _ _ _ _ c _ _ _ => c
  | _ => 0

def TraceOp.opGroupFd : TraceOp → Int
  | .openEvent _ _ _ _ _ _ g _ _ => g
  | _ => 0

def TraceOp.rFd : TraceOp → Nat
  | .openEvent _ _ _ _ _ _ _ _ f => f
  | _ => 0

/-- An open done with the "new group" sentinel descriptor. -/
def TraceOp.isSentinelOpen : TraceOp → Bool
  | .openEvent _ _ _ _ _ _ g _ _ => g == groupLeaderFileDescriptor
  | _ => false

/-! ### Go maps as association lists -/

/-- Go map lookup (`m[k]` in a two-valued context). -/
def alistGet {α β : Type} [BEq α] (m : List (α × β)) (k : α) : Option β :=
  List.lookup k m

/-- Go map assignment `m[k] = v`: update in place or append. -/
def alistPut {α β : Type} [BEq α] : List (α × β) → α → β → List (α × β)
  | [], k, v => [(k, v)]
  | p :: rest, k, v => if p.1 == k then (k, v) :: rest else p :: alistPut rest k v

/-- `map[int]int` with Go's zero-value-on-missing lookup. -/
abbrev FdMap := List (Int × Int)

/-- `m[k]` in a one-valued context: the zero value 0 when missing. -/
def mapGet (m : FdMap) (k : Int) : Int := (alistGet m k).getD 0

/-- The initial `leaderFileDescriptors` map: every online CPU mapped to
the sentinel. -/
def initLfds (cpus : List Int) : FdMap :=
  cpus.foldl (fun m c => alistPut m c groupLeaderFileDescriptor) []

/-! ### Collector descriptor state -/

/-- The Go `group` struct: nested per-event per-CPU descriptor maps, the
registered names, the leader's name. -/
structure CGroupFiles where
  cpuFiles : List (String × List (Int × Int))
  names : List String
  leaderName : String
deriving DecidableEq

/-- The collector's `cpuFiles` map (group index → group). -/
structure CState where
  cpuFiles : List (Nat × CGroupFiles)
deriving DecidableEq

/-- `addEventFile(index, name, cpu, perfFile)`. -/
def addEventFile (st : CState) (index : Nat) (name : String) (cpu : Int) (fd : Int) : CState :=
  let g0 : CGroupFiles := match alistGet st.cpuFiles index with
    | none => { cpuFiles := [], names := [], leaderName := name }
    | some g => g
  let inner := (alistGet g0.cpuFiles name).getD []
  let g1 := { g0 with cpuFiles := alistPut g0.cpuFiles name (alistPut inner cpu fd) }
  let g2 := if g1.names.contains name then g1 else { g1 with names := g1.names ++ [name] }
  { cpuFiles := alistPut st.cpuFiles index g2 }

/-- The descriptor tracked under (group index, event name, CPU), if any. -/
def trackedFd (st : CState) (gi : Nat) (name : String) (cpu : Int) : Option Int :=
  match alistGet st.cpuFiles gi with
  | none => none
  | some g =>
    match alistGet g.cpuFiles name with
    | none => none
    | some inner => alistGet inner cpu

/-- The `eventInfo` struct. -/
structure EventInfo where
  name : String
  config : PerfEventAttr
  pid : Int
  groupIndex : Nat

/-- The per-CPU loop of `registerEvent`: open one descriptor per online
CPU (passing that CPU's current leader descriptor), track it under
(group, name, cpu), and, for a leader, collect the new descriptors. -/
def registerEventLoop (ora : PerfOracle) (ev : EventInfo) (eventIdx : Nat) (pid : Int)
    (flags : Nat) (isLeader : Bool) (lfds : FdMap) :
    List Int → CState → FdMap → CState × List TraceOp × Except PerfError FdMap
  | [], st, newLfds => (st, [], .ok (if isLeader then newLfds else lfds))
  | cpu :: rest, st, newLfds =>
    match ora.openEvent ev.config pid cpu (mapGet lfds cpu) flags with
    | .error e => (st, [], .error (.openFailed ev.config e))
    | .ok fd =>
      let st' := addEventFile st ev.groupIndex ev.name cpu (Int.ofNat fd)
      let newLfds' := if isLeader then alistPut newLfds cpu (Int.ofNat fd) else newLfds
      match registerEventLoop ora ev eventIdx pid flags isLeader lfds rest st' newLfds' with
      | (st'', tr, res) =>
        (st'', TraceOp.openEvent ev.groupIndex eventIdx ev.name ev.config pid cpu
          (mapGet lfds cpu) flags fd :: tr, res)

/-- `registerEvent(event, leaderFileDescriptors)`: decide leadership from
`leaderFileDescriptors[0]` (Go's zero value for a missing key!), choose
pid/flags accordingly, and open on every online CPU. -/
def registerEvent (ora : PerfOracle) (onlineCPUs : List Int) (ev : EventInfo)
    (eventIdx : Nat) (lfds : FdMap) (st : CState) :
    CState × List TraceOp × Except PerfError FdMap :=
  if lfds.length = onlineCPUs.length then
    let isLeader := mapGet lfds 0 == groupLeaderFileDescriptor
    let pid := if isLeader then ev.pid else (-1 : Int)
    let flags := if isLeader then PERF_FLAG_FD_CLOEXEC ||| PERF_FLAG_PID_CGROUP
      else PERF_FLAG_FD_CLOEXEC
    registerEventLoop ora ev eventIdx pid flags isLeader lfds onlineCPUs st []
  else
    (st, [], .error .noLeaderFds)

/-- `createConfigFromRawEvent`. -/
def createConfigFromRawEvent (event : CustomEvent) (isGroupLeader : Bool) : PerfEventAttr :=
  setAttributes (createPerfEventAttr event) isGroupLeader

/-- `createConfigFromEvent`: resolve the symbolic name through libpfm,
then apply the shared attributes. -/
def createConfigFromEvent (ora : PerfOracle) (event : String) (isGroupLeader : Bool) :
    Except PerfError PerfEventAttr :=
  match ora.resolveEvent event with
  | .error code => .error (.resolveFailed event code)
  | .ok attr => .ok (setAttributes attr isGroupLeader)

/-- Static context of one `setup` call. -/
structure SetupCtx where
  onlineCPUs : List Int
  cgroupFd : Int
  customs : String → Option CustomEvent

/-- The name a registered event is tracked under: the custom event's name
when the event resolves to a custom event, the event string otherwise
(they coincide for the maps `mapEventsToCustomEvents` builds). -/
def usedName (customs : String → Option CustomEvent) (ev : String) : String :=
  match customs ev with
  | some ce => ce.name
  | none => ev

/-- The inner loop of `setup` over one group's events (`j` is the event
index; the first element is group leader). -/
def processEvents (ora : PerfOracle) (ctx : SetupCtx) (gi : Nat) :
    Nat → FdMap → List String → CState → CState × List TraceOp × Except PerfError FdMap
  | _, lfds, [], st => (st, [], .ok lfds)
  | j, lfds, ev :: rest, st =>
    let isGroupLeader := j == 0
    match ctx.customs ev with
    | some ce =>
      let cfg := createConfigFromRawEvent ce isGroupLeader
      match registerEvent ora ctx.onlineCPUs
          { name := ce.name, config := cfg, pid := ctx.cgroupFd, groupIndex := gi } j lfds st with
      | (st', tr, .error e) => (st', tr, .error e)
      | (st', tr, .ok lfds') =>
        match processEvents ora ctx gi (j + 1) lfds' rest st' with
        | (st'', tr', res) => (st'', tr ++ tr', res)
    | none =>
      match createConfigFromEvent ora ev isGroupLeader with
      | .error e => (st, [], .error e)
      | .ok cfg =>
        match registerEvent ora ctx.onlineCPUs
            { name := ev, config := cfg, pid := ctx.cgroupFd, groupIndex := gi } j lfds st with
        | (st', tr, .error e) => (st', tr, .error e)
        | (st', tr, .ok lfds') =>
          match processEvents ora ctx gi (j + 1) lfds' rest st' with
          | (st'', tr', res) => (st'', tr ++ tr', res)

/-- The reset-and-enable loop over the per-CPU leader descriptors (Go
iterates the map's values; the claims proved here do not depend on the
iteration order). -/
def enableGroup (ora : PerfOracle) (gi : Nat) : List Int → List TraceOp × Except PerfError Unit
  | [] => ([], .ok ())
  | fd :: rest =>
    match ora.resetEvent fd with
    | .error e => ([], .error (.ioctlFailed e))
    | .ok _ =>
      match ora.enableEvent fd with
      | .error e => ([TraceOp.ioctlReset gi fd], .error (.ioctlFailed e))
      | .ok _ =>
        match enableGroup ora gi rest with
        | (tr, res) => (TraceOp.ioctlReset gi fd :: TraceOp.ioctlEnable gi fd :: tr, res)

/-- The outer loop of `setup` over the event groups. -/
def processGroups (ora : PerfOracle) (ctx : SetupCtx) :
    Nat → CState → List (List String) → CState × List TraceOp × Except PerfError Unit
  | _, st, [] => (st, [], .ok ())
  | gi, st, g :: rest =>
    match processEvents ora ctx gi 0 (initLfds ctx.onlineCPUs) g st with
    | (st', tr, .error e) => (st', tr, .error e)
    | (st', tr, .ok lfds) =>
      match enableGroup ora gi (lfds.map Prod.snd) with
      | (trc, .error e) => (st', tr ++ trc, .error e)
      | (trc, .ok _) =>
        match processGroups ora ctx (gi + 1) st' rest with
        | (st'', tr', res) => (st'', tr ++ trc ++ tr', res)

/-- `setup()`: open the cgroup directory, then register and enable every
group.  `cgroupOpen` is the outcome of `os.Open(cgroupPath)` (its
descriptor is non-negative). -/
def setup (ora : PerfOracle) (cgroupOpen : Except String Nat) (cgroupPath : String)
    (onlineCPUs : List Int) (customs : String → Option CustomEvent)
    (groups : List (List String)) : CState × List TraceOp × Except PerfError Unit :=
  match cgroupOpen with
  | .error e => ({ cpuFiles := [] }, [], .error (.cgroupOpenFailed cgroupPath e))
  | .ok fd =>
    processGroups ora
      { onlineCPUs := onlineCPUs, cgroupFd := Int.ofNat fd, customs := customs }
      0 { cpuFiles := [] } groups

/-! ### Concrete setup scenarios -/

/-- A fully succeeding oracle: symbolic resolution keyed on the name
length, distinct descriptors per (config, cpu), succeeding ioctls. -/
def oracleHappy : PerfOracle :=
  { resolveEvent := fun n => .ok { emptyAttr with attrType := 4, config := n.length },
    openEvent := fun cfg _ cpu _ _ => .ok (10 * cfg.config + cpu.toNat + 3),
    resetEvent := fun _ => .ok (),
    enableEvent := fun _ => .ok () }

/-- An oracle whose open always yields descriptor 7 and whose reset ioctl
fails on a negative descriptor (EBADF), as the kernel does. -/
def oracleNoCpu0 : PerfOracle :=
  { resolveEvent := fun n => .ok { emptyAttr with config := n.length },
    openEvent := fun _ _ _ _ _ => .ok 7,
    resetEvent := fun fd => if fd < 0 then .error "bad file descriptor" else .ok (),
    enableEvent := fun _ => .ok () }

/-- An oracle whose open always fails with a permission error. -/
def oracleOpenDenied : PerfOracle :=
  { resolveEvent := fun _ => .ok emptyAttr,
    openEvent := fun _ _ _ _ _ => .error "eperm",
    resetEvent := fun _ => .ok (),
    enableEvent := fun _ => .ok () }

/-! ### C4 — leader / sibling grouping -/

/-- C4: when CPU 0 is not among the online CPUs, `registerEvent`'s
leadership test `leaderFileDescriptors[0] == groupLeaderFileDescriptor`
reads Go's zero value 0 for the missing key 0, so *no* event is treated
as leader: with online CPUs {1} and a two-event group, both events are
opened with the sentinel descriptor -1 (and with pid -1 and without the
cgroup flag), the second event never receives the first event's
already-open descriptor 7, and setup then fails resetting the
still-sentinel "leader" map — contradicting the claim (and the code's
own "First element is group leader" comment). -/
theorem c4_leader_sentinel_cpu0_offline :
    (setup oracleNoCpu0 (.ok 5) "/c" [1] (fun _ => none) [["e1", "e2"]]).2.1 =
      [TraceOp.openEvent 0 0 "e1" (setAttributes { emptyAttr with config := 2 } true)
        (-1) 1 (-1) PERF_FLAG_FD_CLOEXEC 7,
       TraceOp.openEvent 0 1 "e2" (setAttributes { emptyAttr with config := 2 } false)
        (-1) 1 (-1) PERF_FLAG_FD_CLOEXEC 7] ∧
    ((setup oracleNoCpu0 (.ok 5) "/c" [1] (fun _ => none) [["e1", "e2"]]).2.1.map
      TraceOp.opGroupFd) = [-1, -1] ∧
    (setup oracleNoCpu0 (.ok 5) "/c" [1] (fun _ => none) [["e1", "e2"]]).2.2 =
      .error (.ioctlFailed "bad file descriptor") := by
  refine ⟨by decide, by decide, by rfl⟩

/-! ### C5 — worked scenario -/

/-- C5: for a group of 3 events with online CPUs {0, 1}, setup opens
exactly 3×2 = 6 descriptors of which exactly 2 are opened as leaders
(with the "new group" sentinel), and a group read with header
{count = 3, enabled = 1000, running = 500} and raw values {100, 200, 300}
produces ratio 1/2 and corrected values {200, 400, 600}, each tagged
with ratio 1/2. -/
theorem c5_scenario_setup_and_scaling :
    ((setup oracleHappy (.ok 3) "/t" [0, 1] (fun _ => none) [["a", "b", "c"]]).2.1.filter
      TraceOp.isOpenOp).length = 6 ∧
    ((setup oracleHappy (.ok 3) "/t" [0, 1] (fun _ => none) [["a", "b", "c"]]).2.1.filter
      TraceOp.isSentinelOpen).length = 2 ∧
    (setup oracleHappy (.ok 3) "/t" [0, 1] (fun _ => none) [["a", "b", "c"]]).2.2 = .ok () ∧
    getPerfValues (.ok bufScenario) grpTriple =
      .ok [{ scalingRatio := 1 / 2, value := 200, name := "a" },
           { scalingRatio := 1 / 2, value := 400, name := "b" },
           { scalingRatio := 1 / 2, value := 600, name := "c" }] := by
  refine ⟨by decide, by decide, by rfl, ?_⟩
  rw [getPerfValues_ok_scaled _ _ 500 1000 (by decide) (by decide) (by decide)
    (by decide) (by decide)]
  have hv : decodedValues bufScenario grpTriple = [100, 200, 300] := by decide
  rw [hv]
  norm_num [List.zipWith]

/-! ### C7 — failure policy -/

/-- C7 counterexample: two setups whose only difference is the *name* of
the failing event ("b" in the one-group setup versus "c") abort with
*identical* error values — the open-failure error carries only the
attribute configuration and the underlying error, so it does not identify
the event (nor the group: no error constructor of the source carries the
group index). -/
theorem c7_error_identity_counterexample :
    (setup oracleOpenDenied (.ok 3) "/c" [0] (fun _ => none) [["b"]]).2.2 =
      .error (.openFailed (setAttributes emptyAttr true) "eperm") ∧
    (setup oracleOpenDenied (.ok 3) "/c" [0] (fun _ => none) [["c"]]).2.2 =
      .error (.openFailed (setAttributes emptyAttr true) "eperm") ∧
    "b" ≠ "c" := by
  refine ⟨by rfl, by rfl, by decide⟩

/-! ### Association-list lemmas -/

theorem lookup_append_none {α β : Type} [BEq α] (k : α) (a b : List (α × β))
    (h : List.lookup k a = none) : List.lookup k (a ++ b) = List.lookup k b := by
  induction a with
  | nil => rfl
  | cons p rest ih =>
    obtain ⟨k', v'⟩ := p
    rw [List.cons_append]
    simp only [List.lookup] at h ⊢
    cases hbeq : k == k' with
    | true => rw [hbeq] at h; simp at h
    | false =>
      rw [hbeq] at h
      exact ih h

theorem lookup_singleton_ne {α β : Type} [BEq α] (k k' : α) (v : β)
    (h : (k == k') = false) : List.lookup k [(k', v)] = none := by
  simp only [List.lookup, h]

theorem alistPut_fresh {α β : Type} [BEq α] [LawfulBEq α] (m : List (α × β)) (k : α) (v : β)
    (h : List.lookup k m = none) : alistPut m k v = m ++ [(k, v)] := by
  induction m with
  | nil => rfl
  | cons p rest ih =>
    obtain ⟨k', v'⟩ := p
    simp only [List.lookup] at h
    unfold alistPut
    cases hbeq : k == k' with
    | true => rw [hbeq] at h; simp at h
    | false =>
      rw [hbeq] at h
      have hbeq' : (k' == k) = false :=
        beq_eq_false_iff_ne.mpr (Ne.symm (beq_eq_false_iff_ne.mp hbeq))
      simp only [hbeq', List.cons_append, ih h]
      rfl

theorem alistGet_alistPut_self {α β : Type} [BEq α] [LawfulBEq α]
    (m : List (α × β)) (k : α) (v : β) :
    alistGet (alistPut m k v) k = some v := by
  induction m with
  | nil => simp [alistGet, alistPut, List.lookup]
  | cons p rest ih =>
    obtain ⟨k', v'⟩ := p
    unfold alistPut
    cases hbeq : k' == k with
    | true => simp [alistGet, List.lookup]
    | false =>
      have : (k == k') = false := by
        cases h2 : k == k' with
        | true => rw [BEq.comm] at h2; rw [h2] at hbeq; exact Bool.noConfusion hbeq
        | false => rfl
      simp only [alistGet, List.lookup, this]
      exact ih

theorem alistGet_alistPut_other {α β : Type} [BEq α] [LawfulBEq α]
    (m : List (α × β)) (k k' : α) (v : β) (h : k' ≠ k) :
    alistGet (alistPut m k v) k' = alistGet m k' := by
  have hbeq : (k' == k) = false := beq_eq_false_iff_ne.mpr h
  induction m with
  | nil => simp [alistGet, alistPut, List.lookup, hbeq]
  | cons p rest ih =>
    obtain ⟨k'', v''⟩ := p
    unfold alistPut
    cases hbeq2 : k'' == k with
    | true =>
      have : k'' = k := eq_of_beq hbeq2
      subst this
      simp only [alistGet, List.lookup, hbeq]
    | false =>
      simp only [alistGet, List.lookup] at ih ⊢
      cases hbeq3 : k' == k'' with
      | true => rfl
      | false => exact ih

theorem lookup_map_const {v : Int} (c : Int) :
    ∀ (cpus : List Int), c ∈ cpus →
      List.lookup c (cpus.map (fun x => (x, v))) = some v := by
  intro cpus
  induction cpus with
  | nil => intro h; simp at h
  | cons a rest ih =>
    intro h
    simp only [List.map, List.lookup]
    by_cases hc : c = a
    · subst hc; simp
    · have : (c == a) = false := beq_eq_false_iff_ne.mpr hc
      rw [this]
      refine ih ?_
      rcases List.mem_cons.mp h with h1 | h1
      · exact absurd h1 hc
      · exact h1

theorem lookup_zip_mem (c : Int) :
    ∀ (as bs : List Int), as.length = bs.length → c ∈ as →
      ∃ v ∈ bs, List.lookup c (as.zip bs) = some v := by
  intro as
  induction as with
  | nil => intro bs _ h; simp at h
  | cons a rest ih =>
    intro bs hlen hmem
    cases bs with
    | nil => simp at hlen
    | cons b bs' =>
      simp only [List.zip_cons_cons, List.lookup]
      by_cases hc : c = a
      · subst hc
        refine ⟨b, by simp, ?_⟩
        simp
      · have hbeq : (c == a) = false := beq_eq_false_iff_ne.mpr hc
        rw [hbeq]
        have hmem' : c ∈ rest := by
          rcases List.mem_cons.mp hmem with h | h
          · exact absurd h hc
          · exact h
        obtain ⟨v, hv, hl⟩ := ih bs' (by simpa using hlen) hmem'
        exact ⟨v, by simp [hv], hl⟩

theorem foldl_alistPut_fresh :
    ∀ (cpus : List Int) (m : FdMap), cpus.Nodup →
      (∀ c ∈ cpus, List.lookup c m = none) →
      cpus.foldl (fun m c => alistPut m c groupLeaderFileDescriptor) m =
        m ++ cpus.map (fun c => (c, groupLeaderFileDescriptor)) := by
  intro cpus
  induction cpus with
  | nil => intro m _ _; simp
  | cons a rest ih =>
    intro m hnd hfresh
    simp only [List.foldl, List.map]
    rw [alistPut_fresh m a _ (hfresh a (by simp))]
    rw [ih (m ++ [(a, groupLeaderFileDescriptor)]) (List.Nodup.of_cons hnd) ?_]
    · simp
    · intro c hc
      have hne : c ≠ a := by
        intro heq
        subst heq
        exact (List.nodup_cons.mp hnd).1 hc
      rw [lookup_append_none c m _ (hfresh c (by simp [hc]))]
      exact lookup_singleton_ne c a _ (beq_eq_false_iff_ne.mpr hne)

/-- Under distinct online CPUs, the initial leader map is literally one
sentinel entry per CPU. -/
theorem initLfds_eq (cpus : List Int) (hnd : cpus.Nodup) :
    initLfds cpus = cpus.map (fun c => (c, groupLeaderFileDescriptor)) := by
  unfold initLfds
  rw [foldl_alistPut_fresh cpus [] hnd (fun c _ => rfl)]
  simp

theorem initLfds_length (cpus : List Int) (hnd : cpus.Nodup) :
    (initLfds cpus).length = cpus.length := by
  rw [initLfds_eq cpus hnd, List.length_map]

theorem mapGet_initLfds (cpus : List Int) (hnd : cpus.Nodup) (c : Int) (hc : c ∈ cpus) :
    mapGet (initLfds cpus) c = groupLeaderFileDescriptor := by
  rw [initLfds_eq cpus hnd]
  unfold mapGet alistGet
  rw [lookup_map_const c cpus hc]
  rfl

/-! ### `registerEvent` characterization -/

/-- The open recorded for (cpu, fd) by the register loop. -/
def openOpFor (ev : EventInfo) (j : Nat) (pid : Int) (flags : Nat) (lfds : FdMap)
    (cpu : Int) (fd : Nat) : TraceOp :=
  TraceOp.openEvent ev.groupIndex j ev.name ev.config pid cpu (mapGet lfds cpu) flags fd

theorem registerEventLoop_ok_false (ora : PerfOracle) (ev : EventInfo) (j : Nat)
    (pid : Int) (flags : Nat) (lfds : FdMap) :
    ∀ (cpus : List Int) (st : CState) (newLfds : FdMap) (st' : CState)
      (tr : List TraceOp) (m : FdMap),
      registerEventLoop ora ev j pid flags false lfds cpus st newLfds = (st', tr, .ok m) →
      m = lfds ∧
      ∃ fds : List Nat, fds.length = cpus.length ∧
        tr = List.zipWith (openOpFor ev j pid flags lfds) cpus fds := by
  intro cpus
  induction cpus with
  | nil =>
    intro st newLfds st' tr m h
    simp only [registerEventLoop, Prod.mk.injEq, Bool.false_eq_true, if_false] at h
    obtain ⟨-, h2, h3⟩ := h
    refine ⟨by injection h3 with h3; exact h3.symm, [], rfl, by rw [← h2]; rfl⟩
  | cons cpu rest ih =>
    intro st newLfds st' tr m h
    simp only [registerEventLoop] at h
    cases horacle : ora.openEvent ev.config pid cpu (mapGet lfds cpu) flags with
    | error e =>
      rw [horacle] at h
      simp only [Prod.mk.injEq] at h
      exact absurd h.2.2 (by simp)
    | ok fd =>
      rw [horacle] at h
      simp only [Bool.false_eq_true, if_false] at h
      cases hrec : registerEventLoop ora ev j pid flags false lfds rest
          (addEventFile st ev.groupIndex ev.name cpu (Int.ofNat fd)) newLfds with
      | mk st₂ p =>
        obtain ⟨tr₂, res₂⟩ := p
        rw [hrec] at h
        simp only [Prod.mk.injEq] at h
        obtain ⟨h1, h2, h3⟩ := h
        subst h3
        obtain ⟨hm, fds, hlen, htr⟩ := ih _ _ _ _ _ hrec
        refine ⟨hm, fd :: fds, by simp [hlen], ?_⟩
        rw [← h2, htr]
        rfl

theorem registerEventLoop_ok_true (ora : PerfOracle) (ev : EventInfo) (j : Nat)
    (pid : Int) (flags : Nat) (lfds : FdMap) :
    ∀ (cpus : List Int) (st : CState) (newLfds : FdMap) (st' : CState)
      (tr : List TraceOp) (m : FdMap),
      cpus.Nodup →
      (∀ c ∈ cpus, List.lookup c newLfds = none) →
      registerEventLoop ora ev j pid flags true lfds cpus st newLfds = (st', tr, .ok m) →
      ∃ fds : List Nat, fds.length = cpus.length ∧
        tr = List.zipWith (openOpFor ev j pid flags lfds) cpus fds ∧
        m = newLfds ++ cpus.zip (fds.map Int.ofNat) := by
  intro cpus
  induction cpus with
  | nil =>
    intro st newLfds st' tr m _ _ h
    simp only [registerEventLoop, if_true, Prod.mk.injEq] at h
    obtain ⟨-, h2, h3⟩ := h
    refine ⟨[], rfl, by rw [← h2]; rfl, ?_⟩
    injection h3 with h3
    rw [← h3]
    simp
  | cons cpu rest ih =>
    intro st newLfds st' tr m hnd hfresh h
    simp only [registerEventLoop] at h
    cases horacle : ora.openEvent ev.config pid cpu (mapGet lfds cpu) flags with
    | error e =>
      rw [horacle] at h
      simp only [Prod.mk.injEq] at h
      exact absurd h.2.2 (by simp)
    | ok fd =>
      rw [horacle] at h
      simp only [if_true] at h
      rw [alistPut_fresh newLfds cpu (Int.ofNat fd) (hfresh cpu (by simp))] at h
      cases hrec : registerEventLoop ora ev j pid flags true lfds rest
          (addEventFile st ev.groupIndex ev.name cpu (Int.ofNat fd))
          (newLfds ++ [(cpu, Int.ofNat fd)]) with
      | mk st₂ p =>
        obtain ⟨tr₂, res₂⟩ := p
        rw [hrec] at h
        simp only [Prod.mk.injEq] at h
        obtain ⟨h1, h2, h3⟩ := h
        subst h3
        have hfresh' : ∀ c ∈ rest, List.lookup c (newLfds ++ [(cpu, Int.ofNat fd)]) = none := by
          intro c hc
          have hne : c ≠ cpu := by
            intro heq
            subst heq
            exact (List.nodup_cons.mp hnd).1 hc
          rw [lookup_append_none c newLfds _ (hfresh c (by simp [hc]))]
          exact lookup_singleton_ne c cpu _ (beq_eq_false_iff_ne.mpr hne)
        obtain ⟨fds, hlen, htr, hm⟩ := ih _ _ _ _ _ (List.Nodup.of_cons hnd) hfresh' hrec
        refine ⟨fd :: fds, by simp [hlen], ?_, ?_⟩
        · rw [← h2, htr]
          rfl
        · rw [hm]
          simp [List.append_assoc]

theorem registerEvent_leader_ok (ora : PerfOracle) (cpus : List Int) (ev : EventInfo)
    (j : Nat) (lfds : FdMap) (st : CState) (st' : CState) (tr : List TraceOp) (m : FdMap)
    (hnd : cpus.Nodup)
    (hlen : lfds.length = cpus.length)
    (hlead : mapGet lfds 0 = groupLeaderFileDescriptor)
    (h : registerEvent ora cpus ev j lfds st = (st', tr, .ok m)) :
    ∃ fds : List Nat, fds.length = cpus.length ∧
      tr = List.zipWith
        (openOpFor ev j ev.pid (PERF_FLAG_FD_CLOEXEC ||| PERF_FLAG_PID_CGROUP) lfds) cpus fds ∧
      m = cpus.zip (fds.map Int.ofNat) := by
  unfold registerEvent at h
  rw [if_pos hlen] at h
  have hbeq : (mapGet lfds 0 == groupLeaderFileDescriptor) = true := beq_iff_eq.mpr hlead
  simp only [hbeq, if_true] at h
  obtain ⟨fds, h1, h2, h3⟩ :=
    registerEventLoop_ok_true ora ev j ev.pid _ lfds cpus st [] st' tr m hnd
      (fun c _ => rfl) h
  exact ⟨fds, h1, h2, by rw [h3]; simp⟩

theorem registerEvent_nonleader_ok (ora : PerfOracle) (cpus : List Int) (ev : EventInfo)
    (j : Nat) (lfds : FdMap) (st : CState) (st' : CState) (tr : List TraceOp) (m : FdMap)
    (hlen : lfds.length = cpus.length)
    (hlead : mapGet lfds 0 ≠ groupLeaderFileDescriptor)
    (h : registerEvent ora cpus ev j lfds st = (st', tr, .ok m)) :
    m = lfds ∧
    ∃ fds : List Nat, fds.length = cpus.length ∧
      tr = List.zipWith (openOpFor ev j (-1) PERF_FLAG_FD_CLOEXEC lfds) cpus fds := by
  unfold registerEvent at h
  rw [if_pos hlen] at h
  have hbeq : (mapGet lfds 0 == groupLeaderFileDescriptor) = false := beq_eq_false_iff_ne.mpr hlead
  simp only [hbeq, Bool.false_eq_true, if_false] at h
  exact registerEventLoop_ok_false ora ev j (-1) _ lfds cpus st [] st' tr m h

/-! ### Attribute and config lemmas -/

/-- The counting-disabled bit (bit 0) is set by `setAttributes` exactly
for the leader, whatever the incoming configuration. -/
theorem setAttributes_testBit (cfg : PerfEventAttr) (leader : Bool) :
    ((setAttributes cfg leader).bits).testBit 0 = leader := by
  cases leader with
  | false =>
    have h : (setAttributes cfg false).bits =
        perfAttrBitsInherit ||| perfAttrBitsExcludeGuest := rfl
    rw [h]
    decide
  | true =>
    have h : (setAttributes cfg true).bits =
        (perfAttrBitsInherit ||| perfAttrBitsExcludeGuest) ||| PerfBitDisabled := rfl
    rw [h]
    decide

/-- Inversion of a successful symbolic-config creation: the result is
`setAttributes` of some resolved base attribute. -/
theorem createConfigFromEvent_inv (ora : PerfOracle) (ev : String) (leader : Bool)
    (cfg : PerfEventAttr) (h : createConfigFromEvent ora ev leader = .ok cfg) :
    ∃ base, cfg = setAttributes base leader := by
  unfold createConfigFromEvent at h
  cases hr : ora.resolveEvent ev with
  | error code => rw [hr] at h; exact Except.noConfusion h
  | ok attr =>
    rw [hr] at h
    injection h with h
    exact ⟨attr, h.symm⟩

/-- Membership in a `zipWith`, remembering where the pair came from. -/
theorem mem_zipWith_exists_mem {α β γ : Type} {f : α → β → γ} {c : γ} :
    ∀ {as : List α} {bs : List β}, c ∈ List.zipWith f as bs →
      ∃ a ∈ as, ∃ b ∈ bs, c = f a b := by
  intro as
  induction as with
  | nil => intro bs h; simp at h
  | cons a as ih =>
    intro bs h
    cases bs with
    | nil => simp at h
    | cons b bs =>
      rw [List.zipWith_cons_cons] at h
      rcases List.mem_cons.mp h with h | h
      · exact ⟨a, by simp, b, by simp, h⟩
      · obtain ⟨a', ha', b', hb', hc⟩ := ih h
        exact ⟨a', by simp [ha'], b', by simp [hb'], hc⟩

/-- Projecting the returned descriptors out of a zipped block of opens. -/
theorem map_rFd_zipWith (ev : EventInfo) (j : Nat) (pid : Int) (flags : Nat) (lfds : FdMap) :
    ∀ (cpus : List Int) (fds : List Nat), fds.length = cpus.length →
      (List.zipWith (openOpFor ev j pid flags lfds) cpus fds).map TraceOp.rFd = fds := by
  intro cpus
  induction cpus with
  | nil =>
    intro fds hlen
    cases fds with
    | nil => rfl
    | cons f fs => simp at hlen
  | cons cpu rest ih =>
    intro fds hlen
    cases fds with
    | nil => simp at hlen
    | cons f fs =>
      rw [List.zipWith_cons_cons, List.map_cons, ih fs (by simpa using hlen)]
      rfl

/-! ### `processEvents` characterization -/

/-- Processing the events after the leader (any `j ≠ 0`) with a leader
map whose entry for CPU 0 is not the sentinel: the map passes through
unchanged and every recorded operation is a non-leader open of this
group, with the counting-disabled bit clear. -/
theorem processEvents_sibling_ok (ora : PerfOracle) (ctx : SetupCtx) (gi : Nat) :
    ∀ (events : List String) (j : Nat) (lfds : FdMap) (st st' : CState)
      (tr : List TraceOp) (m : FdMap),
      j ≠ 0 →
      mapGet lfds 0 ≠ groupLeaderFileDescriptor →
      lfds.length = ctx.onlineCPUs.length →
      processEvents ora ctx gi j lfds events st = (st', tr, .ok m) →
      m = lfds ∧
      ∀ op ∈ tr, op.isOpenOp = true ∧ op.gIdx = gi ∧ op.eIdx ≠ 0 ∧
        op.attr.bits.testBit 0 = false := by
  intro events
  induction events with
  | nil =>
    intro j lfds st st' tr m _ _ _ h
    simp only [processEvents, Prod.mk.injEq] at h
    obtain ⟨-, h2, h3⟩ := h
    refine ⟨by injection h3 with h3; exact h3.symm, ?_⟩
    rw [← h2]
    intro op hop
    simp at hop
  | cons ev rest ih =>
    intro j lfds st st' tr m hj hlead hlen h
    simp only [processEvents] at h
    have hj0 : (j == 0) = false := beq_eq_false_iff_ne.mpr hj
    rw [hj0] at h
    cases hc : ctx.customs ev with
    | some ce =>
      rw [hc] at h
      dsimp only at h
      cases hreg : registerEvent ora ctx.onlineCPUs
          { name := ce.name, config := createConfigFromRawEvent ce false,
            pid := ctx.cgroupFd, groupIndex := gi } j lfds st with
      | mk st₁ p =>
        obtain ⟨tr₁, res₁⟩ := p
        rw [hreg] at h
        cases res₁ with
        | error e =>
          dsimp only at h
          simp only [Prod.mk.injEq] at h
          exact absurd h.2.2 (by simp)
        | ok lfds' =>
          dsimp only at h
          cases hrec : processEvents ora ctx gi (j + 1) lfds' rest st₁ with
          | mk st₂ p2 =>
            obtain ⟨tr₂, res₂⟩ := p2
            rw [hrec] at h
            dsimp only at h
            simp only [Prod.mk.injEq] at h
            obtain ⟨h1, h2, h3⟩ := h
            subst h3
            obtain ⟨hm1, fds, hflen, htr1⟩ := registerEvent_nonleader_ok ora ctx.onlineCPUs
              _ j lfds st st₁ tr₁ lfds' hlen hlead hreg
            rw [hm1] at hrec
            obtain ⟨hm2, hops⟩ := ih (j + 1) lfds st₁ st₂ tr₂ m (by omega) hlead hlen hrec
            refine ⟨hm2, ?_⟩
            rw [← h2]
            intro op hop
            rcases List.mem_append.mp hop with hop | hop
            · rw [htr1] at hop
              obtain ⟨cpu, fd, rfl⟩ := mem_zipWith_exists hop
              refine ⟨rfl, rfl, hj, ?_⟩
              show (createConfigFromRawEvent ce false).bits.testBit 0 = false
              unfold createConfigFromRawEvent
              rw [setAttributes_testBit]
            · exact hops op hop
    | none =>
      rw [hc] at h
      dsimp only at h
      cases hcc : createConfigFromEvent ora ev false with
      | error e =>
        rw [hcc] at h
        dsimp only at h
        simp only [Prod.mk.injEq] at h
        exact absurd h.2.2 (by simp)
      | ok cfg =>
        rw [hcc] at h
        dsimp only at h
        cases hreg : registerEvent ora ctx.onlineCPUs
            { name := ev, config := cfg, pid := ctx.cgroupFd, groupIndex := gi } j lfds st with
        | mk st₁ p =>
          obtain ⟨tr₁, res₁⟩ := p
          rw [hreg] at h
          cases res₁ with
          | error e =>
            dsimp only at h
            simp only [Prod.mk.injEq] at h
            exact absurd h.2.2 (by simp)
          | ok lfds' =>
            dsimp only at h
            cases hrec : processEvents ora ctx gi (j + 1) lfds' rest st₁ with
            | mk st₂ p2 =>
              obtain ⟨tr₂, res₂⟩ := p2
              rw [hrec] at h
              dsimp only at h
              simp only [Prod.mk.injEq] at h
              obtain ⟨h1, h2, h3⟩ := h
              subst h3
              obtain ⟨hm1, fds, hflen, htr1⟩ := registerEvent_nonleader_ok ora ctx.onlineCPUs
                _ j lfds st st₁ tr₁ lfds' hlen hlead hreg
              rw [hm1] at hrec
              obtain ⟨hm2, hops⟩ := ih (j + 1) lfds st₁ st₂ tr₂ m (by omega) hlead hlen hrec
              refine ⟨hm2, ?_⟩
              rw [← h2]
              intro op hop
              rcases List.mem_append.mp hop with hop | hop
              · rw [htr1] at hop
                obtain ⟨cpu, fd, rfl⟩ := mem_zipWith_exists hop
                refine ⟨rfl, rfl, hj, ?_⟩
                obtain ⟨base, rfl⟩ := createConfigFromEvent_inv ora ev false cfg hcc
                show (setAttributes base false).bits.testBit 0 = false
                rw [setAttributes_testBit]
              · exact hops op hop

/-- Helper: an entry of the zipped leader map is never the sentinel. -/
theorem mapGet_zip_ofNat_ne_sentinel (cpus : List Int) (fds : List Nat)
    (hflen : fds.length = cpus.length) (h0 : (0 : Int) ∈ cpus) :
    mapGet (cpus.zip (fds.map Int.ofNat)) 0 ≠ groupLeaderFileDescriptor := by
  obtain ⟨v, hv, hl⟩ := lookup_zip_mem 0 cpus (fds.map Int.ofNat)
    (by rw [List.length_map, hflen]) h0
  obtain ⟨f, -, rfl⟩ := List.mem_map.mp hv
  unfold mapGet alistGet
  rw [hl]
  intro hcontra
  simp only [Option.getD_some] at hcontra
  unfold groupLeaderFileDescriptor at hcontra
  have hnn : (0 : Int) ≤ Int.ofNat f := Int.ofNat_nonneg f
  omega

/-- Processing a whole nonempty group from the sentinel-initialized
leader map: every recorded operation is an open of this group whose
counting-disabled bit marks exactly the leader opens, and the final
leader map holds exactly the leader opens' descriptors, so the controls
that `setup` will issue over it are reset-then-enable on each leader
descriptor. -/
theorem processEvents_group_ok (ora : PerfOracle) (ctx : SetupCtx) (gi : Nat)
    (e : String) (rest : List String) (st st' : CState)
    (tr : List TraceOp) (m : FdMap)
    (h0 : (0 : Int) ∈ ctx.onlineCPUs) (hnd : ctx.onlineCPUs.Nodup)
    (h : processEvents ora ctx gi 0 (initLfds ctx.onlineCPUs) (e :: rest) st = (st', tr, .ok m)) :
    (∀ op ∈ tr, op.isOpenOp = true ∧ op.gIdx = gi ∧
      (op.attr.bits.testBit 0 = true ↔ op.eIdx = 0)) ∧
    (m.map Prod.snd).map (fun fd => [TraceOp.ioctlReset gi fd, TraceOp.ioctlEnable gi fd]) =
      (tr.filter (fun op => op.eIdx == 0)).map
        (fun op => [TraceOp.ioctlReset gi (Int.ofNat op.rFd),
                    TraceOp.ioctlEnable gi (Int.ofNat op.rFd)]) := by
  have hlen0 : (initLfds ctx.onlineCPUs).length = ctx.onlineCPUs.length :=
    initLfds_length ctx.onlineCPUs hnd
  have hlead0 : mapGet (initLfds ctx.onlineCPUs) 0 = groupLeaderFileDescriptor :=
    mapGet_initLfds ctx.onlineCPUs hnd 0 h0
  simp only [processEvents] at h
  have h00 : ((0 : Nat) == 0) = true := rfl
  rw [h00] at h
  -- common continuation once the leader registration is characterized
  have cont : ∀ (st₁ : CState) (tr₁ : List TraceOp) (lfds' : FdMap),
      (∀ op ∈ tr₁, op.isOpenOp = true ∧ op.gIdx = gi ∧ op.eIdx = 0 ∧
        op.attr.bits.testBit 0 = true) ∧
      (∃ fds : List Nat, fds.length = ctx.onlineCPUs.length ∧
        tr₁.map TraceOp.rFd = fds ∧ lfds' = ctx.onlineCPUs.zip (fds.map Int.ofNat)) →
      ∀ (st₂ : CState) (tr₂ : List TraceOp) (res₂ : Except PerfError FdMap),
      processEvents ora ctx gi 1 lfds' rest st₁ = (st₂, tr₂, res₂) →
      st₂ = st' → tr₁ ++ tr₂ = tr → res₂ = .ok m →
      (∀ op ∈ tr, op.isOpenOp = true ∧ op.gIdx = gi ∧
        (op.attr.bits.testBit 0 = true ↔ op.eIdx = 0)) ∧
      (m.map Prod.snd).map (fun fd => [TraceOp.ioctlReset gi fd, TraceOp.ioctlEnable gi fd]) =
        (tr.filter (fun op => op.eIdx == 0)).map
          (fun op => [TraceOp.ioctlReset gi (Int.ofNat op.rFd),
                      TraceOp.ioctlEnable gi (Int.ofNat op.rFd)]) := by
    intro st₁ tr₁ lfds' ⟨hL, fds, hflen, hmap, hlfds'⟩ st₂ tr₂ res₂ hrec hst htr hres
    subst hres
    have hlead' : mapGet lfds' 0 ≠ groupLeaderFileDescriptor := by
      rw [hlfds']
      exact mapGet_zip_ofNat_ne_sentinel ctx.onlineCPUs fds hflen h0
    have hlen' : lfds'.length = ctx.onlineCPUs.length := by
      rw [hlfds', List.length_zip, List.length_map, hflen, Nat.min_self]
    obtain ⟨hm, hS⟩ := processEvents_sibling_ok ora ctx gi rest 1 lfds' st₁ st₂ tr₂ m
      (by omega) hlead' hlen' hrec
    constructor
    · rw [← htr]
      intro op hop
      rcases List.mem_append.mp hop with hop | hop
      · obtain ⟨o1, o2, o3, o4⟩ := hL op hop
        exact ⟨o1, o2, by rw [o3, o4]; simp⟩
      · obtain ⟨o1, o2, o3, o4⟩ := hS op hop
        refine ⟨o1, o2, ?_⟩
        rw [o4]
        constructor
        · intro hcontra
          exact absurd hcontra (by simp)
        · intro heq
          exact absurd heq o3
    · -- controls: the final map's descriptors are the leader opens' fds
      rw [hm, hlfds']
      rw [List.map_snd_zip _ _ (le_of_eq (by rw [List.length_map, hflen]))]
      rw [← htr, List.filter_append]
      have hfL : tr₁.filter (fun op => op.eIdx == 0) = tr₁ := by
        apply List.filter_eq_self.mpr
        intro op hop
        have := (hL op hop).2.2.1
        simp [this]
      have hfS : tr₂.filter (fun op => op.eIdx == 0) = [] := by
        apply List.filter_eq_nil_iff.mpr
        intro op hop
        have := (hS op hop).2.2.1
        simp [this]
      rw [hfL, hfS, List.append_nil]
      rw [← hmap, List.map_map, List.map_map]
      rfl
  cases hc : ctx.customs e with
  | some ce =>
    rw [hc] at h
    dsimp only at h
    cases hreg : registerEvent ora ctx.onlineCPUs
        { name := ce.name, config := createConfigFromRawEvent ce true,
          pid := ctx.cgroupFd, groupIndex := gi } 0 (initLfds ctx.onlineCPUs) st with
    | mk st₁ p =>
      obtain ⟨tr₁, res₁⟩ := p
      rw [hreg] at h
      cases res₁ with
      | error e' =>
        dsimp only at h
        simp only [Prod.mk.injEq] at h
        exact absurd h.2.2 (by simp)
      | ok lfds' =>
        dsimp only at h
        cases hrec : processEvents ora ctx gi 1 lfds' rest st₁ with
        | mk st₂ p2 =>
          obtain ⟨tr₂, res₂⟩ := p2
          rw [hrec] at h
          dsimp only at h
          simp only [Prod.mk.injEq] at h
          obtain ⟨h1, h2, h3⟩ := h
          obtain ⟨fds, hflen, htrL, hm⟩ := registerEvent_leader_ok ora ctx.onlineCPUs
            _ 0 (initLfds ctx.onlineCPUs) st st₁ tr₁ lfds' hnd hlen0 hlead0 hreg
          refine cont st₁ tr₁ lfds' ⟨?_, fds, hflen, ?_, hm⟩ st₂ tr₂ res₂ hrec h1 h2 h3
          · intro op hop
            rw [htrL] at hop
            obtain ⟨cpu, fd, rfl⟩ := mem_zipWith_exists hop
            refine ⟨rfl, rfl, rfl, ?_⟩
            show (createConfigFromRawEvent ce true).bits.testBit 0 = true
            unfold createConfigFromRawEvent
            rw [setAttributes_testBit]
          · rw [htrL]
            exact map_rFd_zipWith _ 0 _ _ _ ctx.onlineCPUs fds hflen
  | none =>
    rw [hc] at h
    dsimp only at h
    cases hcc : createConfigFromEvent ora e true with
    | error e' =>
      rw [hcc] at h
      dsimp only at h
      simp only [Prod.mk.injEq] at h
      exact absurd h.2.2 (by simp)
    | ok cfg =>
      rw [hcc] at h
      dsimp only at h
      cases hreg : registerEvent ora ctx.onlineCPUs
          { name := e, config := cfg, pid := ctx.cgroupFd, groupIndex := gi } 0
          (initLfds ctx.onlineCPUs) st with
      | mk st₁ p =>
        obtain ⟨tr₁, res₁⟩ := p
        rw [hreg] at h
        cases res₁ with
        | error e' =>
          dsimp only at h
          simp only [Prod.mk.injEq] at h
          exact absurd h.2.2 (by simp)
        | ok lfds' =>
          dsimp only at h
          cases hrec : processEvents ora ctx gi 1 lfds' rest st₁ with
          | mk st₂ p2 =>
            obtain ⟨tr₂, res₂⟩ := p2
            rw [hrec] at h
            dsimp only at h
            simp only [Prod.mk.injEq] at h
            obtain ⟨h1, h2, h3⟩ := h
            obtain ⟨fds, hflen, htrL, hm⟩ := registerEvent_leader_ok ora ctx.onlineCPUs
              _ 0 (initLfds ctx.onlineCPUs) st st₁ tr₁ lfds' hnd hlen0 hlead0 hreg
            refine cont st₁ tr₁ lfds' ⟨?_, fds, hflen, ?_, hm⟩ st₂ tr₂ res₂ hrec h1 h2 h3
            · intro op hop
              rw [htrL] at hop
              obtain ⟨cpu, fd, rfl⟩ := mem_zipWith_exists hop
              refine ⟨rfl, rfl, rfl, ?_⟩
              obtain ⟨base, rfl⟩ := createConfigFromEvent_inv ora e true cfg hcc
              show (setAttributes base true).bits.testBit 0 = true
              rw [setAttributes_testBit]
            · rw [htrL]
              exact map_rFd_zipWith _ 0 _ _ _ ctx.onlineCPUs fds hflen

/-- A successful reset-and-enable pass issues exactly reset-then-enable
for each descriptor of the leader map, in order. -/
theorem enableGroup_ok (ora : PerfOracle) (gi : Nat) :
    ∀ (fds : List Int) (tr : List TraceOp), enableGroup ora gi fds = (tr, .ok ()) →
      tr = (fds.map (fun fd => [TraceOp.ioctlReset gi fd, TraceOp.ioctlEnable gi fd])).flatten := by
  intro fds
  induction fds with
  | nil =>
    intro tr h
    simp only [enableGroup, Prod.mk.injEq] at h
    rw [← h.1]
    rfl
  | cons fd rest ih =>
    intro tr h
    simp only [enableGroup] at h
    cases hr : ora.resetEvent fd with
    | error e =>
      rw [hr] at h
      simp only [Prod.mk.injEq] at h
      exact absurd h.2 (by simp)
    | ok u =>
      rw [hr] at h
      dsimp only at h
      cases he : ora.enableEvent fd with
      | error e =>
        rw [he] at h
        simp only [Prod.mk.injEq] at h
        exact absurd h.2 (by simp)
      | ok u' =>
        rw [he] at h
        dsimp only at h
        cases hrec : enableGroup ora gi rest with
        | mk tr₂ res₂ =>
          rw [hrec] at h
          dsimp only at h
          simp only [Prod.mk.injEq] at h
          obtain ⟨h1, h2⟩ := h
          subst h2
          rw [← h1, ih tr₂ hrec]
          rfl

/-- Successful `setup` group processing decomposes the trace into one
segment per group: first all the group's opens (disabled bit exactly on
the leader opens), then reset-and-enable on each per-CPU leader
descriptor (the descriptors the leader opens returned). -/
theorem processGroups_ok (ora : PerfOracle) (ctx : SetupCtx)
    (h0 : (0 : Int) ∈ ctx.onlineCPUs) (hnd : ctx.onlineCPUs.Nodup) :
    ∀ (groups : List (List String)) (gi0 : Nat) (st st' : CState) (tr : List TraceOp),
      (∀ g ∈ groups, g ≠ []) →
      processGroups ora ctx gi0 st groups = (st', tr, .ok ()) →
      ∃ segs : List (List TraceOp),
        tr = segs.flatten ∧ segs.length = groups.length ∧
        ∀ k (hk : k < segs.length),
          ∃ opens : List TraceOp,
            segs.get ⟨k, hk⟩ = opens ++
              ((opens.filter (fun op => op.eIdx == 0)).map
                (fun op => [TraceOp.ioctlReset (gi0 + k) (Int.ofNat op.rFd),
                            TraceOp.ioctlEnable (gi0 + k) (Int.ofNat op.rFd)])).flatten ∧
            ∀ op ∈ opens, op.isOpenOp = true ∧ op.gIdx = gi0 + k ∧
              (op.attr.bits.testBit 0 = true ↔ op.eIdx = 0) := by
  intro groups
  induction groups with
  | nil =>
    intro gi0 st st' tr _ h
    simp only [processGroups, Prod.mk.injEq] at h
    refine ⟨[], by rw [← h.2.1]; rfl, rfl, ?_⟩
    intro k hk
    simp at hk
  | cons g rest ih =>
    intro gi0 st st' tr hne h
    have hgne : g ≠ [] := hne g (by simp)
    cases g with
    | nil => exact absurd rfl hgne
    | cons e es =>
      simp only [processGroups] at h
      cases hpe : processEvents ora ctx gi0 0 (initLfds ctx.onlineCPUs) (e :: es) st with
      | mk st₁ p1 =>
        obtain ⟨tr₁, res₁⟩ := p1
        rw [hpe] at h
        cases res₁ with
        | error e' =>
          dsimp only at h
          simp only [Prod.mk.injEq] at h
          exact absurd h.2.2 (by simp)
        | ok lfds =>
          dsimp only at h
          cases hen : enableGroup ora gi0 (lfds.map Prod.snd) with
          | mk trc resc =>
            rw [hen] at h
            cases resc with
            | error e' =>
              dsimp only at h
              simp only [Prod.mk.injEq] at h
              exact absurd h.2.2 (by simp)
            | ok u =>
              dsimp only at h
              cases hrec : processGroups ora ctx (gi0 + 1) st₁ rest with
              | mk st₂ p2 =>
                obtain ⟨tr₂, res₂⟩ := p2
                rw [hrec] at h
                dsimp only at h
                simp only [Prod.mk.injEq] at h
                obtain ⟨h1, h2, h3⟩ := h
                subst h3
                obtain ⟨hops, hctl⟩ := processEvents_group_ok ora ctx gi0 e es st st₁
                  tr₁ lfds h0 hnd hpe
                have htrc : trc = ((tr₁.filter (fun op => op.eIdx == 0)).map
                    (fun op => [TraceOp.ioctlReset gi0 (Int.ofNat op.rFd),
                                TraceOp.ioctlEnable gi0 (Int.ofNat op.rFd)])).flatten := by
                  have := enableGroup_ok ora gi0 (lfds.map Prod.snd) trc (by
                    cases u
                    exact hen)
                  rw [this, hctl]
                obtain ⟨segs, hflat, hlen, hprops⟩ := ih (gi0 + 1) st₁ st₂ tr₂
                  (fun g' hg' => hne g' (by simp [hg'])) hrec
                refine ⟨(tr₁ ++ trc) :: segs, ?_, by simp [hlen], ?_⟩
                · rw [← h2, hflat]
                  simp
                · intro k hk
                  cases k with
                  | zero =>
                    refine ⟨tr₁, ?_, ?_⟩
                    · show tr₁ ++ trc = _
                      rw [htrc, Nat.add_zero]
                    · intro op hop
                      rw [Nat.add_zero]
                      exact hops op hop
                  | succ k' =>
                    have hk' : k' < segs.length := by simpa using hk
                    obtain ⟨opens, hseg, hprop⟩ := hprops k' hk'
                    have hidx : gi0 + 1 + k' = gi0 + (k' + 1) := by omega
                    refine ⟨opens, ?_, ?_⟩
                    · rw [List.get_cons_succ, hseg, hidx]
                    · intro op hop
                      rw [← hidx]
                      exact hprop op hop

/-- C6: during setup of every event group, only the leader's attribute
configuration carries the counting-disabled bit, and the trace of a
successful setup splits into per-group segments: first every open of the
group (on all online CPUs, all events), only then a reset followed by an
enable control operation on each per-CPU leader descriptor (the
descriptors returned by the leader's opens) — so no counting starts
before every sibling has joined the group. -/
theorem c6_group_enable_ordering (ora : PerfOracle) (cgfd : Nat) (cgroupPath : String)
    (cpus : List Int) (customs : String → Option CustomEvent) (groups : List (List String))
    (h0 : (0 : Int) ∈ cpus) (hnd : cpus.Nodup) (hne : ∀ g ∈ groups, g ≠ [])
    (hok : (setup ora (.ok cgfd) cgroupPath cpus customs groups).2.2 = .ok ()) :
    ∃ segs : List (List TraceOp),
      (setup ora (.ok cgfd) cgroupPath cpus customs groups).2.1 = segs.flatten ∧
      segs.length = groups.length ∧
      ∀ k (hk : k < segs.length),
        ∃ opens : List TraceOp,
          segs.get ⟨k, hk⟩ = opens ++
            ((opens.filter (fun op => op.eIdx == 0)).map
              (fun op => [TraceOp.ioctlReset k (Int.ofNat op.rFd),
                          TraceOp.ioctlEnable k (Int.ofNat op.rFd)])).flatten ∧
          ∀ op ∈ opens, op.isOpenOp = true ∧ op.gIdx = k ∧
            (op.attr.bits.testBit 0 = true ↔ op.eIdx = 0) := by
  have hsetup : setup ora (.ok cgfd) cgroupPath cpus customs groups =
      processGroups ora { onlineCPUs := cpus, cgroupFd := Int.ofNat cgfd, customs := customs }
        0 { cpuFiles := [] } groups := rfl
  rw [hsetup] at hok ⊢
  cases hpg : processGroups ora
      { onlineCPUs := cpus, cgroupFd := Int.ofNat cgfd, customs := customs }
      0 { cpuFiles := [] } groups with
  | mk st' p =>
    obtain ⟨tr, res⟩ := p
    rw [hpg] at hok
    dsimp only at hok
    subst hok
    obtain ⟨segs, hflat, hlen, hprops⟩ := processGroups_ok ora
      { onlineCPUs := cpus, cgroupFd := Int.ofNat cgfd, customs := customs }
      h0 hnd groups 0 { cpuFiles := [] } st' tr hne hpg
    refine ⟨segs, hflat, hlen, ?_⟩
    intro k hk
    obtain ⟨opens, hseg, hprop⟩ := hprops k hk
    rw [Nat.zero_add] at hseg
    refine ⟨opens, hseg, ?_⟩
    intro op hop
    have := hprop op hop
    rwa [Nat.zero_add] at this

/-- C6 witness: the ordering theorem applied to the concrete
three-event, two-CPU setup. -/
theorem c6_group_enable_ordering_witness :
    ∃ segs : List (List TraceOp),
      (setup oracleHappy (.ok 3) "/t" [0, 1] (fun _ => none) [["a", "b", "c"]]).2.1 =
        segs.flatten ∧
      segs.length = [["a", "b", "c"]].length ∧
      ∀ k (hk : k < segs.length),
        ∃ opens : List TraceOp,
          segs.get ⟨k, hk⟩ = opens ++
            ((opens.filter (fun op => op.eIdx == 0)).map
              (fun op => [TraceOp.ioctlReset k (Int.ofNat op.rFd),
                          TraceOp.ioctlEnable k (Int.ofNat op.rFd)])).flatten ∧
          ∀ op ∈ opens, op.isOpenOp = true ∧ op.gIdx = k ∧
            (op.attr.bits.testBit 0 = true ↔ op.eIdx = 0) :=
  c6_group_enable_ordering oracleHappy 3 "/t" [0, 1] (fun _ => none) [["a", "b", "c"]]
    (by decide) (by decide) (by decide) (by rfl)

/-! ### Descriptor tracking (`addEventFile`) -/

theorem trackedFd_addEventFile_self (st : CState) (gi : Nat) (name : String)
    (cpu : Int) (fd : Int) :
    trackedFd (addEventFile st gi name cpu fd) gi name cpu = some fd := by
  unfold addEventFile
  cases hg : alistGet st.cpuFiles gi with
  | none =>
    dsimp only
    split <;>
      simp only [trackedFd, alistGet_alistPut_self]
  | some g =>
    dsimp only
    split <;>
      simp only [trackedFd, alistGet_alistPut_self]

theorem trackedFd_addEventFile_other (st : CState) (gi : Nat) (name : String)
    (cpu : Int) (fd : Int) (gi' : Nat) (name' : String) (cpu' : Int)
    (hne : gi' ≠ gi ∨ name' ≠ name ∨ cpu' ≠ cpu) :
    trackedFd (addEventFile st gi name cpu fd) gi' name' cpu' =
      trackedFd st gi' name' cpu' := by
  by_cases hgi : gi' = gi
  · subst hgi
    by_cases hname : name' = name
    · subst hname
      have hcpu : cpu' ≠ cpu := by
        rcases hne with h | h | h
        · exact absurd rfl h
        · exact absurd rfl h
        · exact h
      unfold addEventFile
      cases hg : alistGet st.cpuFiles gi' with
      | none =>
        dsimp only
        split <;>
          simp only [trackedFd, alistGet_alistPut_self, hg,
            alistGet_alistPut_other _ _ _ _ hcpu] <;>
          rfl
      | some g =>
        dsimp only
        split <;>
        · simp only [trackedFd, alistGet_alistPut_self, hg,
            alistGet_alistPut_other _ _ _ _ hcpu]
          cases hin : alistGet g.cpuFiles name' with
          | none => rfl
          | some inner => rfl
    · unfold addEventFile
      cases hg : alistGet st.cpuFiles gi' with
      | none =>
        dsimp only
        split <;>
          simp only [trackedFd, alistGet_alistPut_self, hg,
            alistGet_alistPut_other _ _ _ _ hname] <;>
          rfl
      | some g =>
        dsimp only
        split <;>
          simp only [trackedFd, alistGet_alistPut_self, hg,
            alistGet_alistPut_other _ _ _ _ hname]
  · unfold addEventFile
    dsimp only
    simp only [trackedFd, alistGet_alistPut_other _ _ _ _ hgi]

/-- Descriptor tracking through the per-CPU open loop: keys outside this
event's (group, name, CPUs) keep their tracked descriptor, and every
recorded open of the loop has its returned descriptor tracked in the
resulting state (whether or not the loop eventually fails). -/
theorem registerEventLoop_tracked (ora : PerfOracle) (ev : EventInfo) (j : Nat)
    (pid : Int) (flags : Nat) (isLeader : Bool) (lfds : FdMap) :
    ∀ (cpus : List Int) (st : CState) (newLfds : FdMap),
      cpus.Nodup →
      (∀ (gi' : Nat) (n' : String) (c' : Int),
        (gi' ≠ ev.groupIndex ∨ n' ≠ ev.name ∨ c' ∉ cpus) →
        trackedFd (registerEventLoop ora ev j pid flags isLeader lfds cpus st newLfds).1
          gi' n' c' = trackedFd st gi' n' c') ∧
      (∀ op ∈ (registerEventLoop ora ev j pid flags isLeader lfds cpus st newLfds).2.1,
        op.isOpenOp = true ∧ op.gIdx = ev.groupIndex ∧ op.opName = ev.name ∧
        op.opCpu ∈ cpus ∧
        trackedFd (registerEventLoop ora ev j pid flags isLeader lfds cpus st newLfds).1
          ev.groupIndex ev.name op.opCpu = some (Int.ofNat op.rFd)) := by
  intro cpus
  induction cpus with
  | nil =>
    intro st newLfds _
    refine ⟨fun gi' n' c' _ => rfl, ?_⟩
    intro op hop
    simp only [registerEventLoop] at hop
    simp at hop
  | cons cpu rest ih =>
    intro st newLfds hnd
    constructor
    · intro gi' n' c' hkey
      simp only [registerEventLoop]
      cases horacle : ora.openEvent ev.config pid cpu (mapGet lfds cpu) flags with
      | error e => rfl
      | ok fd =>
        dsimp only
        cases hrec : registerEventLoop ora ev j pid flags isLeader lfds rest
            (addEventFile st ev.groupIndex ev.name cpu (Int.ofNat fd))
            (if isLeader then alistPut newLfds cpu (Int.ofNat fd) else newLfds) with
        | mk st₂ p =>
          dsimp only
          have hkey' : gi' ≠ ev.groupIndex ∨ n' ≠ ev.name ∨ c' ∉ rest := by
            rcases hkey with h | h | h
            · exact Or.inl h
            · exact Or.inr (Or.inl h)
            · exact Or.inr (Or.inr (fun hc => h (by simp [hc])))
          have := (ih (addEventFile st ev.groupIndex ev.name cpu (Int.ofNat fd))
            (if isLeader then alistPut newLfds cpu (Int.ofNat fd) else newLfds)
            (List.Nodup.of_cons hnd)).1 gi' n' c' hkey'
          rw [hrec] at this
          dsimp only at this
          rw [this]
          apply trackedFd_addEventFile_other
          rcases hkey with h | h | h
          · exact Or.inl h
          · exact Or.inr (Or.inl h)
          · exact Or.inr (Or.inr (fun hc => h (by simp [hc])))
    · intro op hop
      simp only [registerEventLoop] at hop
      cases horacle : ora.openEvent ev.config pid cpu (mapGet lfds cpu) flags with
      | error e =>
        rw [horacle] at hop
        simp at hop
      | ok fd =>
        rw [horacle] at hop
        dsimp only at hop
        cases hrec : registerEventLoop ora ev j pid flags isLeader lfds rest
            (addEventFile st ev.groupIndex ev.name cpu (Int.ofNat fd))
            (if isLeader then alistPut newLfds cpu (Int.ofNat fd) else newLfds) with
        | mk st₂ p =>
          obtain ⟨tr₂, res₂⟩ := p
          rw [hrec] at hop
          dsimp only at hop
          have hihpair := ih (addEventFile st ev.groupIndex ev.name cpu (Int.ofNat fd))
            (if isLeader then alistPut newLfds cpu (Int.ofNat fd) else newLfds)
            (List.Nodup.of_cons hnd)
          rw [hrec] at hihpair
          obtain ⟨ihA, ihB⟩ := hihpair
          -- the result state of the whole call is st₂
          simp only [registerEventLoop, horacle, hrec]
          rcases List.mem_cons.mp hop with hop1 | hop2
          · subst hop1
            refine ⟨rfl, rfl, rfl, by simp [TraceOp.opCpu], ?_⟩
            show trackedFd st₂ ev.groupIndex ev.name cpu = some (Int.ofNat fd)
            have hpres := ihA ev.groupIndex ev.name cpu
              (Or.inr (Or.inr (List.Nodup.not_mem hnd)))
            dsimp only at hpres
            rw [hpres]
            exact trackedFd_addEventFile_self st ev.groupIndex ev.name cpu (Int.ofNat fd)
          · obtain ⟨o1, o2, o3, o4, o5⟩ := ihB op hop2
            exact ⟨o1, o2, o3, by simp [o4], o5⟩

theorem registerEvent_tracked (ora : PerfOracle) (cpus : List Int) (ev : EventInfo)
    (j : Nat) (lfds : FdMap) (st : CState) (hnd : cpus.Nodup) :
    (∀ (gi' : Nat) (n' : String) (c' : Int),
      (gi' ≠ ev.groupIndex ∨ n' ≠ ev.name ∨ c' ∉ cpus) →
      trackedFd (registerEvent ora cpus ev j lfds st).1 gi' n' c' = trackedFd st gi' n' c') ∧
    (∀ op ∈ (registerEvent ora cpus ev j lfds st).2.1,
      op.isOpenOp = true ∧ op.gIdx = ev.groupIndex ∧ op.opName = ev.name ∧ op.opCpu ∈ cpus ∧
      trackedFd (registerEvent ora cpus ev j lfds st).1 ev.groupIndex ev.name op.opCpu =
        some (Int.ofNat op.rFd)) := by
  unfold registerEvent
  split
  · exact registerEventLoop_tracked ora ev j _ _ _ lfds cpus st [] hnd
  · refine ⟨fun gi' n' c' _ => rfl, ?_⟩
    intro op hop
    simp at hop

/-- Descriptor tracking through one group's event loop: keys outside this
group index or outside this group's event names are preserved, and every
recorded open has its descriptor tracked in the resulting state. -/
theorem processEvents_tracked (ora : PerfOracle) (ctx : SetupCtx) (gi : Nat)
    (hnd : ctx.onlineCPUs.Nodup) :
    ∀ (events : List String) (j : Nat) (lfds : FdMap) (st : CState),
      (events.map (usedName ctx.customs)).Nodup →
      (∀ (gi' : Nat) (n' : String) (c' : Int),
        (gi' ≠ gi ∨ n' ∉ events.map (usedName ctx.customs)) →
        trackedFd (processEvents ora ctx gi j lfds events st).1 gi' n' c' =
          trackedFd st gi' n' c') ∧
      (∀ op ∈ (processEvents ora ctx gi j lfds events st).2.1,
        op.isOpenOp = true ∧ op.gIdx = gi ∧
        trackedFd (processEvents ora ctx gi j lfds events st).1
          op.gIdx op.opName op.opCpu = some (Int.ofNat op.rFd)) := by
  intro events
  induction events with
  | nil =>
    intro j lfds st _
    refine ⟨fun gi' n' c' _ => rfl, ?_⟩
    intro op hop
    simp only [processEvents] at hop
    simp at hop
  | cons ev rest ih =>
    intro j lfds st hnames
    rw [List.map_cons] at hnames
    have hnm : usedName ctx.customs ev ∉ rest.map (usedName ctx.customs) :=
      (List.nodup_cons.mp hnames).1
    have hnames' : (rest.map (usedName ctx.customs)).Nodup :=
      (List.nodup_cons.mp hnames).2
    simp only [processEvents]
    cases hc : ctx.customs ev with
    | some ce =>
      dsimp only
      have hun : usedName ctx.customs ev = ce.name := by
        unfold usedName
        rw [hc]
      cases hreg : registerEvent ora ctx.onlineCPUs
          { name := ce.name, config := createConfigFromRawEvent ce (j == 0),
            pid := ctx.cgroupFd, groupIndex := gi } j lfds st with
      | mk st₁ p =>
        obtain ⟨tr₁, res₁⟩ := p
        obtain ⟨regA, regB⟩ := registerEvent_tracked ora ctx.onlineCPUs
          { name := ce.name, config := createConfigFromRawEvent ce (j == 0),
            pid := ctx.cgroupFd, groupIndex := gi } j lfds st hnd
        rw [hreg] at regA regB
        dsimp only at regA regB
        cases res₁ with
        | error e =>
          dsimp only
          refine ⟨?_, ?_⟩
          · intro gi' n' c' hkey
            apply regA
            rcases hkey with h | h
            · exact Or.inl h
            · refine Or.inr (Or.inl ?_)
              intro heq
              apply h
              exact List.mem_map.mpr ⟨ev, by simp, by rw [hun, heq]⟩
          · intro op hop
            obtain ⟨o1, o2, o3, o4, o5⟩ := regB op hop
            exact ⟨o1, o2, by rw [o2, o3]; exact o5⟩
        | ok lfds' =>
          dsimp only
          cases hrec : processEvents ora ctx gi (j + 1) lfds' rest st₁ with
          | mk st₂ p2 =>
            obtain ⟨tr₂, res₂⟩ := p2
            obtain ⟨recA, recB⟩ := ih (j + 1) lfds' st₁ hnames'
            rw [hrec] at recA recB
            dsimp only at recA recB ⊢
            refine ⟨?_, ?_⟩
            · intro gi' n' c' hkey
              have hkey' : gi' ≠ gi ∨ n' ∉ rest.map (usedName ctx.customs) := by
                rcases hkey with h | h
                · exact Or.inl h
                · exact Or.inr (fun hmem => h (by simp [hmem]))
              rw [recA gi' n' c' hkey']
              apply regA
              rcases hkey with h | h
              · exact Or.inl h
              · refine Or.inr (Or.inl ?_)
                intro heq
                apply h
                exact List.mem_map.mpr ⟨ev, by simp, by rw [hun, heq]⟩
            · intro op hop
              rcases List.mem_append.mp hop with hop1 | hop2
              · obtain ⟨o1, o2, o3, o4, o5⟩ := regB op hop1
                refine ⟨o1, o2, ?_⟩
                rw [o2, o3]
                rw [recA gi ce.name op.opCpu (Or.inr (by rw [← hun]; exact hnm))]
                exact o5
              · obtain ⟨o1, o2, o3⟩ := recB op hop2
                exact ⟨o1, o2, o3⟩
    | none =>
      dsimp only
      have hun : usedName ctx.customs ev = ev := by
        unfold usedName
        rw [hc]
      cases hcc : createConfigFromEvent ora ev (j == 0) with
      | error e =>
        dsimp only
        refine ⟨fun gi' n' c' _ => rfl, ?_⟩
        intro op hop
        simp at hop
      | ok cfg =>
        dsimp only
        cases hreg : registerEvent ora ctx.onlineCPUs
            { name := ev, config := cfg, pid := ctx.cgroupFd, groupIndex := gi } j lfds st with
        | mk st₁ p =>
          obtain ⟨tr₁, res₁⟩ := p
          obtain ⟨regA, regB⟩ := registerEvent_tracked ora ctx.onlineCPUs
            { name := ev, config := cfg, pid := ctx.cgroupFd, groupIndex := gi } j lfds st hnd
          rw [hreg] at regA regB
          dsimp only at regA regB
          cases res₁ with
          | error e =>
            dsimp only
            refine ⟨?_, ?_⟩
            · intro gi' n' c' hkey
              apply regA
              rcases hkey with h | h
              · exact Or.inl h
              · refine Or.inr (Or.inl ?_)
                intro heq
                apply h
                exact List.mem_map.mpr ⟨ev, by simp, by rw [hun, heq]⟩
            · intro op hop
              obtain ⟨o1, o2, o3, o4, o5⟩ := regB op hop
              exact ⟨o1, o2, by rw [o2, o3]; exact o5⟩
          | ok lfds' =>
            dsimp only
            cases hrec : processEvents ora ctx gi (j + 1) lfds' rest st₁ with
            | mk st₂ p2 =>
              obtain ⟨tr₂, res₂⟩ := p2
              obtain ⟨recA, recB⟩ := ih (j + 1) lfds' st₁ hnames'
              rw [hrec] at recA recB
              dsimp only at recA recB ⊢
              refine ⟨?_, ?_⟩
              · intro gi' n' c' hkey
                have hkey' : gi' ≠ gi ∨ n' ∉ rest.map (usedName ctx.customs) := by
                  rcases hkey with h | h
                  · exact Or.inl h
                  · exact Or.inr (fun hmem => h (by simp [hmem]))
                rw [recA gi' n' c' hkey']
                apply regA
                rcases hkey with h | h
                · exact Or.inl h
                · refine Or.inr (Or.inl ?_)
                  intro heq
                  apply h
                  exact List.mem_map.mpr ⟨ev, by simp, by rw [hun, heq]⟩
              · intro op hop
                rcases List.mem_append.mp hop with hop1 | hop2
                · obtain ⟨o1, o2, o3, o4, o5⟩ := regB op hop1
                  refine ⟨o1, o2, ?_⟩
                  rw [o2, o3]
                  rw [recA gi ev op.opCpu (Or.inr (by rw [← hun]; exact hnm))]
                  exact o5
                · obtain ⟨o1, o2, o3⟩ := recB op hop2
                  exact ⟨o1, o2, o3⟩

/-- An open operation is not a close. -/
theorem isOpen_not_close (op : TraceOp) (h : op.isOpenOp = true) : op.isCloseOp = false := by
  cases op with
  | openEvent _ _ _ _ _ _ _ _ _ => rfl
  | ioctlReset _ _ => rfl
  | ioctlEnable _ _ => rfl
  | closeFd _ => exact absurd h (by simp [TraceOp.isOpenOp])

/-- The reset/enable loop emits only ioctl operations, never closes or
opens — on success and on failure alike. -/
theorem enableGroup_ops (ora : PerfOracle) (gi : Nat) :
    ∀ (fds : List Int), ∀ op ∈ (enableGroup ora gi fds).1,
      op.isOpenOp = false ∧ op.isCloseOp = false := by
  intro fds
  induction fds with
  | nil =>
    intro op hop
    simp only [enableGroup] at hop
    simp at hop
  | cons fd rest ih =>
    intro op hop
    simp only [enableGroup] at hop
    cases hr : ora.resetEvent fd with
    | error e =>
      rw [hr] at hop
      simp at hop
    | ok u =>
      rw [hr] at hop
      dsimp only at hop
      cases he : ora.enableEvent fd with
      | error e =>
        rw [he] at hop
        dsimp only at hop
        rcases List.mem_singleton.mp hop with rfl
        exact ⟨rfl, rfl⟩
      | ok u' =>
        rw [he] at hop
        dsimp only at hop
        cases hrec : enableGroup ora gi rest with
        | mk tr₂ res₂ =>
          rw [hrec] at hop
          dsimp only at hop
          rcases List.mem_cons.mp hop with rfl | hop
          · exact ⟨rfl, rfl⟩
          · rcases List.mem_cons.mp hop with rfl | hop
            · exact ⟨rfl, rfl⟩
            · have := ih op
              rw [hrec] at this
              exact this hop

/-- Descriptor tracking through the group loop: groups below the starting
index are untouched, no trace operation is a close, and every open's
descriptor is tracked in the final state. -/
theorem processGroups_tracked (ora : PerfOracle) (ctx : SetupCtx)
    (hnd : ctx.onlineCPUs.Nodup) :
    ∀ (groups : List (List String)) (gi0 : Nat) (st : CState),
      (∀ g ∈ groups, (g.map (usedName ctx.customs)).Nodup) →
      (∀ (gi' : Nat) (n' : String) (c' : Int), gi' < gi0 →
        trackedFd (processGroups ora ctx gi0 st groups).1 gi' n' c' =
          trackedFd st gi' n' c') ∧
      (∀ op ∈ (processGroups ora ctx gi0 st groups).2.1,
        op.isCloseOp = false ∧
        (op.isOpenOp = true →
          gi0 ≤ op.gIdx ∧
          trackedFd (processGroups ora ctx gi0 st groups).1
            op.gIdx op.opName op.opCpu = some (Int.ofNat op.rFd))) := by
  intro groups
  induction groups with
  | nil =>
    intro gi0 st _
    refine ⟨fun gi' n' c' _ => rfl, ?_⟩
    intro op hop
    simp only [processGroups] at hop
    simp at hop
  | cons g rest ih =>
    intro gi0 st hnames
    simp only [processGroups]
    cases hpe : processEvents ora ctx gi0 0 (initLfds ctx.onlineCPUs) g st with
    | mk st₁ p1 =>
      obtain ⟨tr₁, res₁⟩ := p1
      obtain ⟨peA, peB⟩ := processEvents_tracked ora ctx gi0 hnd g 0
        (initLfds ctx.onlineCPUs) st (hnames g (by simp))
      rw [hpe] at peA peB
      dsimp only at peA peB
      cases res₁ with
      | error e =>
        dsimp only
        refine ⟨?_, ?_⟩
        · intro gi' n' c' hlt
          exact peA gi' n' c' (Or.inl (by omega))
        · intro op hop
          obtain ⟨o1, o2, o3⟩ := peB op hop
          refine ⟨isOpen_not_close op o1, ?_⟩
          intro _
          exact ⟨le_of_eq o2.symm, o3⟩
      | ok lfds =>
        dsimp only
        cases hen : enableGroup ora gi0 (lfds.map Prod.snd) with
        | mk trc resc =>
          have henops := enableGroup_ops ora gi0 (lfds.map Prod.snd)
          rw [hen] at henops
          dsimp only at henops
          cases resc with
          | error e =>
            dsimp only
            refine ⟨?_, ?_⟩
            · intro gi' n' c' hlt
              exact peA gi' n' c' (Or.inl (by omega))
            · intro op hop
              rcases List.mem_append.mp hop with hop1 | hop2
              · obtain ⟨o1, o2, o3⟩ := peB op hop1
                refine ⟨isOpen_not_close op o1, ?_⟩
                intro _
                exact ⟨le_of_eq o2.symm, o3⟩
              · obtain ⟨o1, o2⟩ := henops op hop2
                refine ⟨o2, ?_⟩
                intro hcontra
                rw [o1] at hcontra
                exact absurd hcontra (by simp)
          | ok u =>
            dsimp only
            cases hrec : processGroups ora ctx (gi0 + 1) st₁ rest with
            | mk st₂ p2 =>
              obtain ⟨tr₂, res₂⟩ := p2
              obtain ⟨pgA, pgB⟩ := ih (gi0 + 1) st₁ (fun g' hg' => hnames g' (by simp [hg']))
              rw [hrec] at pgA pgB
              dsimp only at pgA pgB ⊢
              refine ⟨?_, ?_⟩
              · intro gi' n' c' hlt
                rw [pgA gi' n' c' (by omega)]
                exact peA gi' n' c' (Or.inl (by omega))
              · intro op hop
                rcases List.mem_append.mp hop with hop1 | hop2
                · rcases List.mem_append.mp hop1 with hop1a | hop1b
                  · obtain ⟨o1, o2, o3⟩ := peB op hop1a
                    refine ⟨isOpen_not_close op o1, ?_⟩
                    intro _
                    refine ⟨le_of_eq o2.symm, ?_⟩
                    rw [pgA op.gIdx op.opName op.opCpu (by omega)]
                    exact o3
                  · obtain ⟨o1, o2⟩ := henops op hop1b
                    refine ⟨o2, ?_⟩
                    intro hcontra
                    rw [o1] at hcontra
                    exact absurd hcontra (by simp)
                · obtain ⟨o1, o2⟩ := pgB op hop2
                  refine ⟨o1, ?_⟩
                  intro hopen
                  obtain ⟨o3, o4⟩ := o2 hopen
                  exact ⟨by omega, o4⟩

/-- C7 amended: on any outcome of setup — abort included — the trace
contains no close operation (descriptors stay open for `Destroy`), and
every descriptor that was opened is tracked in the collector's nested
descriptor map under its (group, event name, CPU) key: setup never rolls
back partial state. -/
theorem c7_no_rollback_amended (ora : PerfOracle) (cgroupOpen : Except String Nat)
    (cgroupPath : String) (cpus : List Int) (customs : String → Option CustomEvent)
    (groups : List (List String))
    (hnd : cpus.Nodup)
    (hnames : ∀ g ∈ groups, (g.map (usedName customs)).Nodup) :
    (∀ op ∈ (setup ora cgroupOpen cgroupPath cpus customs groups).2.1,
      op.isCloseOp = false) ∧
    (∀ op ∈ (setup ora cgroupOpen cgroupPath cpus customs groups).2.1,
      op.isOpenOp = true →
      trackedFd (setup ora cgroupOpen cgroupPath cpus customs groups).1
        op.gIdx op.opName op.opCpu = some (Int.ofNat op.rFd)) := by
  cases cgroupOpen with
  | error e =>
    refine ⟨?_, ?_⟩ <;>
    · intro op hop
      simp only [setup] at hop
      simp at hop
  | ok fd =>
    have hsetup : setup ora (.ok fd) cgroupPath cpus customs groups =
        processGroups ora { onlineCPUs := cpus, cgroupFd := Int.ofNat fd, customs := customs }
          0 { cpuFiles := [] } groups := rfl
    rw [hsetup]
    obtain ⟨pgA, pgB⟩ := processGroups_tracked ora
      { onlineCPUs := cpus, cgroupFd := Int.ofNat fd, customs := customs }
      hnd groups 0 { cpuFiles := [] } hnames
    refine ⟨fun op hop => (pgB op hop).1, fun op hop hopen => ((pgB op hop).2 hopen).2⟩

/-- C7 witness: the amended theorem applied to the concrete three-event,
two-CPU setup. -/
theorem c7_no_rollback_amended_witness :
    (∀ op ∈ (setup oracleHappy (.ok 3) "/t" [0, 1] (fun _ => none) [["a", "b", "c"]]).2.1,
      op.isCloseOp = false) ∧
    (∀ op ∈ (setup oracleHappy (.ok 3) "/t" [0, 1] (fun _ => none) [["a", "b", "c"]]).2.1,
      op.isOpenOp = true →
      trackedFd (setup oracleHappy (.ok 3) "/t" [0, 1] (fun _ => none) [["a", "b", "c"]]).1
        op.gIdx op.opName op.opCpu = some (Int.ofNat op.rFd)) :=
  c7_no_rollback_amended oracleHappy (.ok 3) "/t" [0, 1] (fun _ => none) [["a", "b", "c"]]
    (by decide) (by decide)
